import Mathlib

/-!
Verification of the videxer indexing engine (src/videxer) against its
natural-language specification.  The Python sources are shallowly embedded:
pure string manipulation is modelled over `List Char`, the filesystem is an
explicit tree value, the asset cache (`.videxer` directory) is explicit state
threaded through the collector, and external collaborators (ffmpeg thumbnail,
motion-preview and transcode generation) are oracle functions supplied as
parameters.  All definitions are executable so that concrete scenarios can be
settled by `decide` or `rfl`.

Modelling conventions, used throughout:
- Python `str` values are ASCII in all scenarios of interest; `str.lower`,
  `\w`, `\d`, `\s` are embedded with their ASCII meaning.
- `pathlib.Path` values relative to the scan root are represented as their
  list of parts (`List String`); `str(path)` joins the parts with "/".
- Python dicts that are used in insertion order (media groups, search-index
  postings) are association lists updated in place.
- Filesystem primitives (`unlink`, `open` for write) succeed in the model;
  per-entry failures that the code catches are modelled where the code
  branches on them (`statOk` on files, sidecar parse results).
-/

namespace Videxer

/-! ## Basic character and string helpers (ASCII fragment of Python semantics) -/

/-- Python whitespace characters (`str.strip`, regex `\s`), ASCII fragment. -/
def isPyWS (c : Char) : Bool :=
  c == ' ' || c == '\t' || c == '\n' || c == '\r' || c == '\x0b' || c == '\x0c'

/-- Regex `\w` word character, ASCII fragment: alphanumeric or underscore. -/
def isWordChar (c : Char) : Bool := c.isAlphanum || c == '_'

/-- Code-point comparison of characters, as Python string comparison uses. -/
def charLtB (a b : Char) : Bool := a.toNat < b.toNat

/-- Lexicographic code-point comparison of character lists (Python `<`). -/
def charListLtB : List Char → List Char → Bool
  | [], [] => false
  | [], _ :: _ => true
  | _ :: _, [] => false
  | a :: as, b :: bs => charLtB a b || (a == b && charListLtB as bs)

def strLtB (s t : String) : Bool := charListLtB s.data t.data

def strLeB (s t : String) : Bool := s == t || strLtB s t

/-- Python `needle in hay` substring test on character lists. -/
def subLst (needle : List Char) : List Char → Bool
  | [] => needle.isEmpty
  | a :: rest => needle.isPrefixOf (a :: rest) || subLst needle rest

/-- Python `needle in hay` substring test on strings. -/
def strHasSub (hay needle : String) : Bool := subLst needle.data hay.data

/-- Python `s.startswith(p)`. -/
def pyStartsWith (s p : String) : Bool := p.data.isPrefixOf s.data

/-- Python `s.endswith(p)`. -/
def pyEndsWith (s p : String) : Bool := p.data.reverse.isPrefixOf s.data.reverse

/-- Python `s.lower()`, ASCII fragment. -/
def pyLower (s : String) : String := ⟨s.data.map Char.toLower⟩

/-- Strip the given characters from both ends (Python `s.strip(chars)`). -/
def pyStripChars (cset : List Char) (s : String) : String :=
  ⟨(((s.data.dropWhile (cset.contains ·)).reverse.dropWhile (cset.contains ·)).reverse)⟩

/-- Python `s.strip()` (default whitespace stripping). -/
def pyStrip (s : String) : String :=
  ⟨(((s.data.dropWhile isPyWS).reverse.dropWhile isPyWS).reverse)⟩

/-- Python `s.lstrip('.')`. -/
def pyLStripDot (s : String) : String := ⟨s.data.dropWhile (· == '.')⟩

/-- Split a character list on a single separator character
(Python `s.split(sep)` for one-character separators: empty pieces kept). -/
def splitChar (sep : Char) : List Char → List (List Char)
  | [] => [[]]
  | c :: rest =>
    let r := splitChar sep rest
    if c == sep then [] :: r
    else
      match r with
      | [] => [[c]]
      | piece :: more => (c :: piece) :: more

/-- Python `s.split(sep)` for a one-character separator, on strings. -/
def pySplitChar (sep : Char) (s : String) : List String :=
  (splitChar sep s.data).map (⟨·⟩)

/-- Split on any of several separator characters
(regex `re.split` with a character class such as `[._]`). -/
def splitCharsAny (seps : List Char) : List Char → List (List Char)
  | [] => [[]]
  | c :: rest =>
    let r := splitCharsAny seps rest
    if seps.contains c then [] :: r
    else
      match r with
      | [] => [[c]]
      | piece :: more => (c :: piece) :: more

/-- Python `s.split(',', n)`: at most `n` splits, remainder kept whole. -/
def splitCharAtMost (sep : Char) : Nat → List Char → List (List Char)
  | 0, cs => [cs]
  | Nat.succ n, cs =>
    match cs with
    | [] => [[]]
    | c :: rest =>
      if c == sep then [] :: splitCharAtMost sep n rest
      else
        match splitCharAtMost sep (Nat.succ n) rest with
        | [] => [[c]]
        | piece :: more => (c :: piece) :: more

/-- Python `sep.join(pieces)` on strings. -/
def pyJoin (sep : String) (pieces : List String) : String :=
  String.intercalate sep pieces

/-- Stable insertion into a sorted list: `a` goes before `b` when `le a b`. -/
def orderedInsertB (le : α → α → Bool) (a : α) : List α → List α
  | [] => [a]
  | b :: l => if le a b then a :: b :: l else b :: orderedInsertB le a l

/-- Stable insertion sort; agrees with Python's stable `sorted`
when `le` is the non-strict comparison of a total order. -/
def insertionSortB (le : α → α → Bool) : List α → List α
  | [] => []
  | a :: l => orderedInsertB le a (insertionSortB le l)

theorem mem_orderedInsertB (le : α → α → Bool) (a x : α) (l : List α) :
    x ∈ orderedInsertB le a l ↔ x = a ∨ x ∈ l := by
  induction l with
  | nil => simp [orderedInsertB]
  | cons b t ih =>
    by_cases h : le a b = true
    · simp [orderedInsertB, h]
    · simp [orderedInsertB, h, ih]
      tauto

theorem mem_insertionSortB (le : α → α → Bool) (x : α) (l : List α) :
    x ∈ insertionSortB le l ↔ x ∈ l := by
  induction l with
  | nil => simp [insertionSortB]
  | cons a t ih => simp [insertionSortB, mem_orderedInsertB, ih]

/-! ## pathlib name semantics

`PurePath.suffix` returns `name[i:]` for `i` the last dot index when
`0 < i < len(name) - 1`, else the empty string; `PurePath.stem` is the
complementary prefix.  File names in this model never contain a slash. -/

/-- Index of the last `'.'` in a name, if any. -/
def lastDotIdx (name : String) : Option Nat :=
  ((List.range name.data.length).filter
    (fun i => name.data.getD i ' ' == '.')).getLast?

/-- `pathlib.PurePath(name).suffix`. -/
def pySuffix (name : String) : String :=
  match lastDotIdx name with
  | some i => if 0 < i && i + 1 < name.data.length then ⟨name.data.drop i⟩ else ""
  | none => ""

/-- `pathlib.PurePath(name).stem`. -/
def pyStem (name : String) : String :=
  match lastDotIdx name with
  | some i => if 0 < i && i + 1 < name.data.length then ⟨name.data.take i⟩ else name
  | none => name

/-- Parts of a relative path joined for display, as `str(path)` shows it. -/
def pathStr (p : List String) : String := String.intercalate "/" p

/-- `pathlib.Path(s).stem` for a path string: stem of the last component. -/
def pathStemOfStr (s : String) : String :=
  pyStem (((splitChar '/' s.data).map (⟨·⟩ : List Char → String)).getLastD "")

/-! ## Extension sets (src/videxer/utils.py lines 17-30) -/

def VIDEO_EXTS : List String :=
  [".mp4", ".mov", ".mkv", ".m4v", ".webm", ".avi", ".wmv", ".flv", ".m4a"]

def AUDIO_EXTS : List String :=
  [".mp3", ".wav", ".flac", ".aac", ".ogg", ".m4a", ".wma"]

def IMAGE_EXTS : List String :=
  [".jpg", ".jpeg", ".png", ".gif", ".bmp", ".tiff", ".webp"]

def SUBTITLE_EXTS : List String :=
  [".srt", ".vtt", ".ass", ".ssa", ".sub", ".idx"]

def VIDEO_EXTS_NO_DOT : List String :=
  ["mp4", "mov", "mkv", "m4v", "webm", "avi", "wmv", "flv", "m4a"]

def AUDIO_EXTS_NO_DOT : List String :=
  ["mp3", "wav", "flac", "aac", "ogg", "m4a", "wma"]

def IMAGE_EXTS_NO_DOT : List String :=
  ["jpg", "jpeg", "png", "gif", "bmp", "tiff", "webp"]

/-- Union of the media extension sets; only membership is ever used, so the
duplicate ".m4a" is harmless. -/
def ALL_MEDIA_EXTS : List String := VIDEO_EXTS ++ AUDIO_EXTS ++ IMAGE_EXTS

/-- `_determine_media_type` (utils.py lines 920-938): lower-case, strip
leading dots, then check the video, audio and image sets in that order. -/
def determineMediaType (extension : String) : String :=
  let ext := pyLStripDot (pyLower extension)
  if VIDEO_EXTS_NO_DOT.contains ext then "video"
  else if AUDIO_EXTS_NO_DOT.contains ext then "audio"
  else if IMAGE_EXTS_NO_DOT.contains ext then "image"
  else "unknown"

/-! ## Tokenization and the inverted search indexes (indexer.py lines 19-67) -/

/-- Left-to-right scan accumulating the current word run (in reverse);
a non-word character or the end of the text flushes the run. -/
def wordRunsAcc : List Char → List Char → List (List Char)
  | [], acc => if acc.isEmpty then [] else [acc.reverse]
  | c :: rest, acc =>
    if isWordChar c then wordRunsAcc rest (c :: acc)
    else if acc.isEmpty then wordRunsAcc rest []
    else acc.reverse :: wordRunsAcc rest []

/-- Maximal runs of word characters: `re.findall` of a word-bounded `\w+`
returns exactly the maximal `\w` runs of the text. -/
def wordRuns (cs : List Char) : List (List Char) := wordRunsAcc cs []

def findAllWords (s : String) : List String := (wordRuns s.data).map (⟨·⟩)

/-- One posting insertion of `_add_to_search_index`: create the key on first
sight (insertion order preserved), then append the ordinal unless present. -/
def insertTokenOcc (d : List (String × List Nat)) (w : String) (idx : Nat) :
    List (String × List Nat) :=
  if (d.lookup w).isSome then
    d.map (fun p =>
      if p.1 == w then (p.1, if p.2.contains idx then p.2 else p.2 ++ [idx]) else p)
  else d ++ [(w, [idx])]

/-- `_add_to_search_index` (indexer.py lines 55-67): split the (already
lower-cased) text into word runs and index every run of length at least 3. -/
def addToSearchIndex (d : List (String × List Nat)) (text : String) (idx : Nat) :
    List (String × List Nat) :=
  (findAllWords text).foldl
    (fun d w => if 3 ≤ w.data.length then insertTokenOcc d w idx else d) d

/-! ## Filename date extraction (indexer.py lines 216-247) -/

/-- Match `\d{4}-\d{2}-\d{2}` at the front of the text. -/
def matchDashedAt (cs : List Char) : Option (List Char) :=
  match cs with
  | a :: b :: c :: d :: e :: f :: g :: h :: i :: j :: _ =>
    if a.isDigit && b.isDigit && c.isDigit && d.isDigit && e == '-' &&
       f.isDigit && g.isDigit && h == '-' && i.isDigit && j.isDigit
    then some [a, b, c, d, e, f, g, h, i, j] else none
  | _ => none

/-- Match `\d{4}\d{2}\d{2}` (eight consecutive digits) at the front. -/
def matchCompactAt (cs : List Char) : Option (List Char) :=
  match cs with
  | a :: b :: c :: d :: e :: f :: g :: h :: _ =>
    if a.isDigit && b.isDigit && c.isDigit && d.isDigit &&
       e.isDigit && f.isDigit && g.isDigit && h.isDigit
    then some [a, b, c, d, e, f, g, h] else none
  | _ => none

/-- `re.search`: leftmost match of a fixed-shape pattern. -/
def searchPat (matchAt : List Char → Option (List Char)) : List Char → Option (List Char)
  | [] => none
  | c :: rest =>
    match matchAt (c :: rest) with
    | some m => some m
    | none => searchPat matchAt rest

/-- `re.sub(pattern, '', s)`: drop every non-overlapping leftmost match,
resuming after each match.  Fueled by the input length. -/
def removeAllPatAux (matchAt : List Char → Option (List Char)) :
    Nat → List Char → List Char
  | 0, cs => cs
  | _ + 1, [] => []
  | n + 1, c :: rest =>
    match matchAt (c :: rest) with
    | some m => removeAllPatAux matchAt n ((c :: rest).drop m.length)
    | none => c :: removeAllPatAux matchAt n rest

def removeAllPat (matchAt : List Char → Option (List Char)) (cs : List Char) :
    List Char :=
  removeAllPatAux matchAt cs.length cs

def digitsToNat (cs : List Char) : Nat :=
  cs.foldl (fun a c => a * 10 + (c.toNat - 48)) 0

def isLeap (y : Nat) : Bool := (y % 4 == 0 && y % 100 != 0) || y % 400 == 0

def daysInMonth (y m : Nat) : Nat :=
  if m == 2 then (if isLeap y then 29 else 28)
  else if m == 4 || m == 6 || m == 9 || m == 11 then 30 else 31

/-- Range checks performed by `datetime.strptime` on a calendar date. -/
def validYMD (y m d : Nat) : Bool :=
  1 ≤ y && y ≤ 9999 && 1 ≤ m && m ≤ 12 && 1 ≤ d && d ≤ daysInMonth y m

def pad2 (n : Nat) : String := if n < 10 then "0" ++ toString n else toString n

def pad4 (n : Nat) : String :=
  if n < 10 then "000" ++ toString n
  else if n < 100 then "00" ++ toString n
  else if n < 1000 then "0" ++ toString n
  else toString n

/-- `datetime.strptime(date_str, fmt).isoformat()` for the two formats used:
the matched text is all digits in the pattern positions, so only the calendar
validation can fail; midnight is implied, so the ISO form ends in T00:00:00. -/
def strptimeIsoDate (dashed : Bool) (m : List Char) : Option String :=
  let y := digitsToNat (m.take 4)
  let mo := digitsToNat ((m.drop (if dashed then 5 else 4)).take 2)
  let d := digitsToNat ((m.drop (if dashed then 8 else 6)).take 2)
  if validYMD y mo d then
    some (pad4 y ++ "-" ++ pad2 mo ++ "-" ++ pad2 d ++ "T00:00:00")
  else none

structure ExtractedMeta where
  name : String
  created_time : Option String
deriving Repr, DecidableEq

/-- `_extract_metadata_from_filename` (indexer.py lines 216-247): stem of the
path, then try the dashed pattern and the compact pattern in order; on the
first pattern whose leftmost match passes `strptime`, record the date, delete
every occurrence of that pattern from the name and trim ` -_`; a match that
fails validation moves on to the next pattern, leaving the name untouched. -/
def extractMetadataFromFilename (filename : String) : ExtractedMeta :=
  let nwe0 := pathStemOfStr filename
  let tryPat := fun (matchAt : List Char → Option (List Char)) (dashed : Bool) =>
    match searchPat matchAt nwe0.data with
    | some m =>
      match strptimeIsoDate dashed m with
      | some iso =>
        some (iso, pyStripChars [' ', '-', '_'] ⟨removeAllPat matchAt nwe0.data⟩)
      | none => none
    | none => none
  let result :=
    match tryPat matchDashedAt true with
    | some r => some r
    | none => tryPat matchCompactAt false
  match result with
  | some (iso, nwe) =>
    ⟨if nwe == "" then filename else nwe, some iso⟩
  | none =>
    ⟨if nwe0 == "" then filename else nwe0, none⟩

/-! ## Data model

Raw collector items, processed index items, sidecar documents and the
filesystem model.  A sidecar (`metadata.json`) is modelled by its parse
result: the three string-valued keys the code reads, plus a flag recording
whether further keys exist (Python dict truthiness tests `if metadata:`). -/

structure MetaDoc where
  name : Option String
  created_time : Option String
  description : Option String
  otherKeys : Bool
deriving Repr, DecidableEq

/-- Truthiness of `metadata.get(key)` for a string-valued key:
present and non-empty. -/
def optTruthy : Option String → Bool
  | some s => !(s == "")
  | none => false

/-- Truthiness of the parsed dict itself (`if metadata:`): non-empty. -/
def docTruthy (d : MetaDoc) : Bool :=
  d.name.isSome || d.created_time.isSome || d.description.isSome || d.otherKeys

structure FileData where
  size : Nat
  mtime : Int
  content : String
  sidecar : Option MetaDoc
  statOk : Bool
deriving Repr, DecidableEq

/-- A filesystem tree entry.  Directory entry lists are kept in the order the
operating system enumerates them (`iterdir`); the code sorts where it needs
order.  The `.videxer` assets directory is not part of this tree: it is
hidden (so every traversal skips it) and is modelled separately as
`AssetsState`. -/
inductive FSEntry where
  | file (name : String) (fd : FileData)
  | dir (name : String) (entries : List FSEntry)
deriving Repr

def entryName : FSEntry → String
  | .file n _ => n
  | .dir n _ => n

def isDirEntry : FSEntry → Bool
  | .dir _ _ => true
  | .file _ _ => false

structure SubRec where
  file : List String
  language : String
  text : List String
  timestamps : List String
  text_combined : String
deriving Repr, DecidableEq

structure MediaFields where
  name : String
  path : List String
  primary_media : List String
  size : Nat
  modified_time : Int
  media_type : String
  created_time : Option String
  description : Option String
  thumbs : List (List String)
  motion_thumb : Option (List String)
  transcoded : Option (List String)
  subtitles : List SubRec
deriving Repr, DecidableEq

/-- A collector item: a media leaf or a directory node with children
(`type` key `'media'` or `'directory'` in the Python dicts). -/
inductive Item where
  | media (m : MediaFields)
  | dirNode (name : String) (path : List String) (created_time : Option String)
      (description : Option String) (children : List Item)
deriving Repr

def Item.isMedia : Item → Bool
  | .media _ => true
  | _ => false

def Item.isDir : Item → Bool
  | .dirNode .. => true
  | _ => false

/-- Output of `_process_media_item` (indexer.py lines 147-213). -/
structure ProcItem where
  name : String
  created_time : Option String
  size : Nat
  media_type : String
  description : Option String
  path : List String
  primary_media : List String
  thumbs : List (List String)
  thumb_best : Option (List String)
  motion_thumb : Option (List String)
  transcoded : Option (List String)
  subtitles : List SubRec
deriving Repr, DecidableEq

structure SearchIndexL where
  name_terms : List (String × List Nat)
  description_terms : List (String × List Nat)
  item_map : List String
deriving Repr, DecidableEq

structure SubIdx where
  subtitle_terms : List (String × List Nat)
deriving Repr, DecidableEq

/-- The item identifier recorded in `item_map`: processed items carry no
`type` key, so `item.get('type', 'unknown')` yields `unknown`, and the
`path` key is always present. -/
def procItemId (it : ProcItem) : String := "unknown_" ++ pathStr it.path

/-- One iteration of the `_build_base_search_index` loop: record the item
identifier, then index the lower-cased name and description when truthy. -/
def baseIndexStep (acc : SearchIndexL) (p : Nat × ProcItem) : SearchIndexL :=
  let idx := p.1
  let item := p.2
  let acc := { acc with item_map := acc.item_map ++ [procItemId item] }
  let nm := pyLower item.name
  let acc :=
    if nm != "" then { acc with name_terms := addToSearchIndex acc.name_terms nm idx }
    else acc
  let desc := item.description.getD ""
  if desc != "" then
    { acc with description_terms := addToSearchIndex acc.description_terms (pyLower desc) idx }
  else acc

/-- `_build_base_search_index` (indexer.py lines 19-40). -/
def buildBaseSearchIndex (items : List ProcItem) : SearchIndexL :=
  items.enum.foldl baseIndexStep ⟨[], [], []⟩

/-- One iteration of the `_build_subtitle_index` loop: index the lower-cased
combined text of every subtitle track of the item. -/
def subIndexStep (acc : SubIdx) (p : Nat × ProcItem) : SubIdx :=
  p.2.subtitles.foldl
    (fun acc sub =>
      let combined := pyLower sub.text_combined
      if combined != "" then
        { acc with subtitle_terms := addToSearchIndex acc.subtitle_terms combined p.1 }
      else acc)
    acc

/-- `_build_subtitle_index` (indexer.py lines 43-52); the `subtitles` key is
present on an item exactly when its subtitle list is non-empty. -/
def buildSubtitleIndex (items : List ProcItem) : SubIdx :=
  items.enum.foldl subIndexStep ⟨[]⟩

/-! ## Structure classifier (utils.py lines 44-72) -/

inductive MediaStructure where
  | flat
  | nested
  | mixed
deriving Repr, DecidableEq

def MediaStructure.value : MediaStructure → String
  | .flat => "flat"
  | .nested => "nested"
  | .mixed => "mixed"

/-- Whether an entry is a file whose suffix is a media extension. -/
def isMediaFile : FSEntry → Bool
  | .file n _ => ALL_MEDIA_EXTS.contains (pyLower (pySuffix n))
  | .dir _ _ => false

/-- `detect_media_structure`: one pass over the root's entries setting the
two flags, then the four-way decision.  No hidden-name filtering here. -/
def detectMediaStructure (rootEntries : List FSEntry) : MediaStructure :=
  let hasFlat := rootEntries.any isMediaFile
  let hasNested := rootEntries.any (fun e =>
    match e with
    | .dir _ es => es.any isMediaFile
    | .file _ _ => false)
  if hasFlat && hasNested then .mixed
  else if hasFlat then .flat
  else if hasNested then .nested
  else .nested

/-! ## Subtitle parsers (utils.py lines 1043-1201) -/

structure ParsedSubs where
  text : List String
  timestamps : List String
deriving Repr, DecidableEq

/-- Greedy continuation of the separator regex: after the opening newline,
consume whitespace, remembering the position after the last newline seen;
`\s*` backtracks to that newline to finish the match. -/
def sepScan : List Char → Option (List Char) → Option (List Char)
  | [], best => best
  | c :: rest, best =>
    if c == '\n' then sepScan rest (some rest)
    else if isPyWS c then sepScan rest best
    else best

/-- Match `\n\s*\n` at the front of the text; on success return the
remainder after the (greedy, leftmost) match. -/
def sepAtFront : List Char → Option (List Char)
  | '\n' :: rest => sepScan rest none
  | _ => none

def splitBlocksAux : Nat → List Char → List Char → List (List Char)
  | 0, cs, acc => [acc.reverse ++ cs]
  | _ + 1, [], acc => [acc.reverse]
  | n + 1, c :: rest, acc =>
    match sepAtFront (c :: rest) with
    | some rest' => acc.reverse :: splitBlocksAux n rest' []
    | none => splitBlocksAux n rest (c :: acc)

/-- `re.split(r'\n\s*\n', text)`: cut at every leftmost greedy match. -/
def reSplitBlankish (cs : List Char) : List (List Char) :=
  splitBlocksAux cs.length cs []

/-- Test a fixed character-class pattern against the front of the text. -/
def shapeAt : List (Char → Bool) → List Char → Bool
  | [], _ => true
  | _ :: _, [] => false
  | p :: ps, c :: cs => p c && shapeAt ps cs

def chr (c : Char) : Char → Bool := (· == c)

/-- `\d{2}:\d{2}:\d{2},\d{3}` -/
def srtTsShape : List (Char → Bool) :=
  [Char.isDigit, Char.isDigit, chr ':', Char.isDigit, Char.isDigit, chr ':',
   Char.isDigit, Char.isDigit, chr ',', Char.isDigit, Char.isDigit, Char.isDigit]

/-- `\d{2}:\d{2}:\d{2}\.\d{3}` -/
def vttTsShape : List (Char → Bool) :=
  [Char.isDigit, Char.isDigit, chr ':', Char.isDigit, Char.isDigit, chr ':',
   Char.isDigit, Char.isDigit, chr '.', Char.isDigit, Char.isDigit, Char.isDigit]

def arrowShape : List (Char → Bool) := [chr ' ', chr '-', chr '-', chr '>', chr ' ']

/-- Match the SRT timestamp line pattern at the front; group 1 is the first
twelve characters (the start timestamp). -/
def matchSrtTsAt (cs : List Char) : Option (List Char) :=
  if shapeAt (srtTsShape ++ arrowShape ++ srtTsShape) cs then some (cs.take 12) else none

def matchVttTsAt (cs : List Char) : Option (List Char) :=
  if shapeAt (vttTsShape ++ arrowShape ++ vttTsShape) cs then some (cs.take 12) else none

/-- Match `<[^>]+>` at the front (HTML tag stripping). -/
def matchTagAt (cs : List Char) : Option (List Char) :=
  match cs with
  | '<' :: rest =>
    let body := rest.takeWhile (fun c => c != '>')
    if body.length == 0 then none
    else
      match rest.drop body.length with
      | '>' :: _ => some (cs.take (body.length + 2))
      | _ => none
  | _ => none

/-- Match the ASS override-tag pattern (open brace, one or more non-brace
characters, close brace) at the front. -/
def matchBraceTagAt (cs : List Char) : Option (List Char) :=
  match cs with
  | '\x7b' :: rest =>
    let body := rest.takeWhile (fun c => c != '\x7d')
    if body.length == 0 then none
    else
      match rest.drop body.length with
      | '\x7d' :: _ => some (cs.take (body.length + 2))
      | _ => none
  | _ => none

/-- `_parse_srt` (utils.py lines 1074-1100). -/
def parseSrt (content : String) : ParsedSubs :=
  let blocks := reSplitBlankish (pyStrip content).data
  blocks.foldl
    (fun acc block =>
      let lines := (splitChar '\n' (pyStrip ⟨block⟩).data).map (⟨·⟩ : List Char → String)
      if 3 ≤ lines.length then
        match searchPat matchSrtTsAt (lines.getD 1 "").data with
        | some ts =>
          let acc := { acc with timestamps := acc.timestamps ++ [(⟨ts⟩ : String)] }
          let text := pyStrip ⟨removeAllPat matchTagAt (pyJoin "\n" (lines.drop 2)).data⟩
          if text != "" then { acc with text := acc.text ++ [text] } else acc
        | none => acc
      else acc)
    ⟨[], []⟩

/-- The predicate ending the VTT text-collection loop. -/
def vttTextLine (line : String) : Bool :=
  !(searchPat matchVttTsAt (pyStrip line).data).isSome && pyStrip line != ""

def parseVttAux : Nat → List String → ParsedSubs → ParsedSubs
  | 0, _, acc => acc
  | _ + 1, [], acc => acc
  | n + 1, line :: rest, acc =>
    let l := pyStrip line
    if l == "WEBVTT" || l == "" || pyStartsWith l "NOTE" then parseVttAux n rest acc
    else
      match searchPat matchVttTsAt l.data with
      | some ts =>
        let acc := { acc with timestamps := acc.timestamps ++ [(⟨ts⟩ : String)] }
        let parts := (rest.takeWhile vttTextLine).map pyStrip
        let text := pyStrip (pyJoin " " parts)
        let acc := if text != "" then { acc with text := acc.text ++ [text] } else acc
        parseVttAux n (rest.dropWhile vttTextLine) acc
      | none => parseVttAux n rest acc

/-- `_parse_vtt` (utils.py lines 1103-1140). -/
def parseVtt (content : String) : ParsedSubs :=
  let lines := pySplitChar '\n' content
  parseVttAux lines.length lines ⟨[], []⟩

/-- `_parse_ass` (utils.py lines 1143-1167). -/
def parseAss (content : String) : ParsedSubs :=
  (pySplitChar '\n' content).foldl
    (fun acc line0 =>
      let line := pyStrip line0
      if pyStartsWith line "Dialogue:" then
        let parts := (splitCharAtMost ',' 9 line.data).map (⟨·⟩ : List Char → String)
        if 10 ≤ parts.length then
          let acc := { acc with timestamps := acc.timestamps ++ [parts.getD 1 ""] }
          let text0 := pyStrip (parts.getD 9 "")
          let text := (⟨removeAllPat matchBraceTagAt text0.data⟩ : String)
          if text != "" then { acc with text := acc.text ++ [text] } else acc
        else acc
      else acc)
    ⟨[], []⟩

/-- `_parse_sub` (utils.py lines 1170-1184): a line is text unless deleting
colons, dots and spaces leaves a non-empty all-digit string. -/
def parseSub (content : String) : ParsedSubs :=
  (pySplitChar '\n' content).foldl
    (fun acc line0 =>
      let l := pyStrip line0
      let digits := l.data.filter (fun c => !(c == ':' || c == '.' || c == ' '))
      if l != "" && !(!digits.isEmpty && digits.all Char.isDigit) then
        { text := acc.text ++ [l], timestamps := acc.timestamps ++ [""] }
      else acc)
    ⟨[], []⟩

/-- `_parse_generic_subtitle` (utils.py lines 1187-1201): every non-empty
line that is not purely digits is text with an empty timestamp. -/
def parseGeneric (content : String) : ParsedSubs :=
  (pySplitChar '\n' content).foldl
    (fun acc line0 =>
      let l := pyStrip line0
      if l != "" && !(l.data.all Char.isDigit) then
        { text := acc.text ++ [l], timestamps := acc.timestamps ++ [""] }
      else acc)
    ⟨[], []⟩

/-- `parse_subtitle_file` (utils.py lines 1043-1071): dispatch on the
file's extension; reading the content is modelled as always succeeding. -/
def parseSubtitleFile (name : String) (content : String) : ParsedSubs :=
  let ext := pyLower (pySuffix name)
  if ext == ".srt" then parseSrt content
  else if ext == ".vtt" then parseVtt content
  else if ext == ".ass" || ext == ".ssa" then parseAss content
  else if ext == ".sub" then parseSub content
  else parseGeneric content

/-- Map a filename part to its language, per the `_detect_subtitle_language`
chain (utils.py lines 518-546). -/
def langOf (part : String) : Option String :=
  if part == "english" || part == "eng" || part == "en" then some "english"
  else if part == "spanish" || part == "spa" || part == "es" then some "spanish"
  else if part == "french" || part == "fre" || part == "fr" then some "french"
  else if part == "german" || part == "ger" || part == "de" then some "german"
  else if part == "italian" || part == "ita" || part == "it" then some "italian"
  else if part == "portuguese" || part == "por" || part == "pt" then some "portuguese"
  else if part == "russian" || part == "rus" || part == "ru" then some "russian"
  else if part == "japanese" || part == "jpn" || part == "ja" then some "japanese"
  else if part == "chinese" || part == "chi" || part == "zh" then some "chinese"
  else none

def firstLang : List String → String
  | [] => "unknown"
  | p :: ps =>
    match langOf p with
    | some l => l
    | none => firstLang ps

/-- `_detect_subtitle_language`: split the lower-cased filename on dots and
underscores and return the first part that names a language. -/
def detectSubtitleLanguage (filename : String) : String :=
  firstLang ((splitCharsAny ['.', '_'] (pyLower filename).data).map (⟨·⟩))

/-! ## Grouping of sibling files (utils.py lines 137-192) -/

def THUMB_INDICATORS : List String :=
  ["thumb", "thumbnail", "cover", "poster", "preview", "artwork", "folder"]

/-- `_is_thumbnail_file` (utils.py lines 941-957). -/
def isThumbnailFile (filename : String) : Bool :=
  let stem := pyLower (pyStem filename)
  THUMB_INDICATORS.any (fun ind =>
    stem == ind || strHasSub stem ("_" ++ ind) || strHasSub stem (ind ++ "_") ||
    strHasSub stem ("-" ++ ind) || strHasSub stem (ind ++ "-"))

def LANG_SUFFIXES : List String :=
  [".en", ".eng", ".english", ".es", ".spa", ".spanish", ".fr", ".french", ".de", ".german"]

/-- `re.sub(r'\.(en|eng|...)$', '', stem, flags=IGNORECASE)`: the pattern is
anchored at the end, and no two of the alternatives can simultaneously be a
suffix of the same string, so the removed tail is unique when one exists. -/
def stripLangSuffix (stem : String) : String :=
  match LANG_SUFFIXES.find? (fun suf => pyEndsWith (pyLower stem) suf) with
  | some suf => ⟨stem.data.take (stem.data.length - suf.data.length)⟩
  | none => stem

structure MediaGroup where
  media : Option (String × FileData)
  subtitles : List (String × FileData)
  thumbnails : List String
deriving Repr

/-- In-place update of one key of an insertion-ordered dict. -/
def updGroup (gs : List (String × MediaGroup)) (key : String)
    (f : MediaGroup → MediaGroup) : List (String × MediaGroup) :=
  gs.map (fun p => if p.1 == key then (p.1, f p.2) else p)

/-- One iteration of the `_group_related_files` loop. -/
def groupStep (gs : List (String × MediaGroup)) (e : FSEntry) :
    List (String × MediaGroup) :=
  match e with
  | .dir _ _ => gs
  | .file name fd =>
    if pyStartsWith name "." || isThumbnailFile name then gs
    else
      let sfx := pyLower (pySuffix name)
      let stem := pyStem name
      if ALL_MEDIA_EXTS.contains sfx then
        if (gs.lookup stem).isSome then
          updGroup gs stem (fun g =>
            if g.media.isNone then { g with media := some (name, fd) } else g)
        else gs ++ [(stem, ⟨some (name, fd), [], []⟩)]
      else if SUBTITLE_EXTS.contains sfx then
        let base := stripLangSuffix stem
        if (gs.lookup base).isSome then
          updGroup gs base (fun g => { g with subtitles := g.subtitles ++ [(name, fd)] })
        else gs ++ [(base, ⟨none, [(name, fd)], []⟩)]
      else if IMAGE_EXTS.contains sfx &&
          (strHasSub (pyLower name) "thumb" || pyStartsWith name "poster") then
        match gs.find? (fun p => strHasSub name p.1) with
        | some kv => updGroup gs kv.1 (fun g => { g with thumbnails := g.thumbnails ++ [name] })
        | none => gs
      else gs

/-- `_group_related_files`: fold the per-entry step over the directory's
entries in enumeration order. -/
def groupRelatedFiles (entries : List FSEntry) : List (String × MediaGroup) :=
  entries.foldl groupStep []

/-! ## Thumbnail discovery (utils.py lines 960-1035) -/

/-- fnmatch-style matching for the patterns used here: `*` matches any
character sequence, all other characters are literal.  Fueled by the total
length so that the definition computes by kernel reduction. -/
def globMatchAux : Nat → List Char → List Char → Bool
  | 0, _, _ => false
  | _ + 1, [], s => s.isEmpty
  | n + 1, '*' :: ps, s =>
    globMatchAux n ps s ||
      (match s with
       | [] => false
       | _ :: s' => globMatchAux n ('*' :: ps) s')
  | _ + 1, _ :: _, [] => false
  | n + 1, p :: ps, c :: s => p == c && globMatchAux n ps s

def globMatch (pat name : String) : Bool :=
  globMatchAux (pat.data.length + name.data.length + 1) pat.data name.data

def thumbnailPatterns (stem : String) : List String :=
  [stem ++ "_thumb_*", stem ++ "-thumb_*",
   stem ++ "_thumbnail.*", stem ++ "-thumbnail.*",
   stem ++ "_thumb.*", stem ++ "-thumb.*",
   stem ++ "_cover.*", stem ++ "-cover.*",
   stem ++ "_poster.*", stem ++ "-poster.*",
   "thumb_*.*", "thumbnail_*.*", "thumb.*", "thumbnail.*",
   "cover.*", "poster.*", "folder.*", "artwork.*", "preview.*"]

def dedupKeepAux : List String → List String → List String
  | [], _ => []
  | a :: rest, seen =>
    if seen.contains a then dedupKeepAux rest seen
    else a :: dedupKeepAux rest (a :: seen)

/-- `list(dict.fromkeys(l))`: deduplicate keeping first occurrences. -/
def dedupKeep (l : List String) : List String := dedupKeepAux l []

/-- `re.search(r'(\d+)x(\d*)', name)`: the first maximal digit run followed
by an `x`; group 2 is the (possibly empty) digit run after the `x`. -/
def resSearchAux : List Char → Option (Nat × Nat)
  | [] => none
  | c :: rest =>
    if c.isDigit then
      let run := (c :: rest).takeWhile Char.isDigit
      match (c :: rest).drop run.length with
      | 'x' :: rest2 =>
        let h := rest2.takeWhile Char.isDigit
        some (digitsToNat run, if h.isEmpty then digitsToNat run else digitsToNat h)
      | _ => resSearchAux rest
    else resSearchAux rest

/-- The `thumbnail_sort_key` of `_find_existing_thumbnails`. -/
def thumbSortKey (mediaStem : String) (thumbName : String) : Nat × Nat :=
  let nm := pyLower (pyStem thumbName)
  match resSearchAux nm.data with
  | some wh => (1, wh.1 * wh.2)
  | none => if strHasSub nm mediaStem then (0, 1000) else (0, 0)

def keyLt (p q : Nat × Nat) : Bool := p.1 < q.1 || (p.1 == q.1 && p.2 < q.2)

/-- `unique_thumbnails.sort(key=..., reverse=True)`: stable descending. -/
def sortThumbsDesc (mediaStem : String) (l : List String) : List String :=
  insertionSortB
    (fun a b => !(keyLt (thumbSortKey mediaStem a) (thumbSortKey mediaStem b))) l

/-- `_find_existing_thumbnails`: glob the sibling files with each pattern in
order, keep image files other than the media file itself, deduplicate, and
stable-sort descending by the quality key. -/
def findExistingThumbnails (mediaName : String) (siblings : List FSEntry) :
    List String :=
  let stem := pyStem mediaName
  let found := (thumbnailPatterns stem).foldl
    (fun acc pat =>
      acc ++ siblings.filterMap (fun e =>
        match e with
        | .file n _ =>
          if globMatch pat n && IMAGE_EXTS.contains (pyLower (pySuffix n)) &&
              n != mediaName then some n else none
        | .dir _ _ => none))
    []
  sortThumbsDesc stem (dedupKeep found)

/-! ## Asset pipeline state and the transcode-ensuring block -/

/-- The `.videxer` assets directory: thumbnail/motion files (one shared
directory) and transcode files with the validity their `ffprobe` would
report.  `ensure_dir` is a no-op in the model and `unlink` succeeds. -/
structure AssetsState where
  thumbFiles : List String
  transcodeFiles : List (String × Bool)
deriving Repr, DecidableEq

structure Flags where
  thumbnails : Bool
  motion : Bool
  transcodes : Bool
deriving Repr, DecidableEq

/-- External collaborators (ffmpeg/OpenCV), keyed by the source path:
whether each generation call succeeds, and whether a freshly generated
transcode would probe as valid. -/
structure Oracles where
  genThumbOk : String → Bool
  genMotionOk : String → Bool
  genTransOk : String → Bool
  genTransValid : String → Bool

def transcodeLookup (st : AssetsState) (n : String) : Option Bool :=
  st.transcodeFiles.lookup n

def transcodeRemove (st : AssetsState) (n : String) : AssetsState :=
  { st with transcodeFiles := st.transcodeFiles.filter (fun p => !(p.1 == n)) }

def transcodeAdd (st : AssetsState) (n : String) (v : Bool) : AssetsState :=
  { st with transcodeFiles := st.transcodeFiles ++ [(n, v)] }

/-- The transcode block of `_create_media_item` (utils.py lines 389-413):
delete an existing artifact that fails validation, generate when absent, and
report the artifact path when present afterwards.  The third component
records whether an encoding request was issued (`generate_video_transcode`
was called). -/
def ensureTranscode (o : Oracles) (stem : String) (src : List String)
    (st : AssetsState) : Option (List String) × AssetsState × Bool :=
  let tn := stem ++ "_web.mp4"
  let st1 :=
    match transcodeLookup st tn with
    | some v => if !v then transcodeRemove st tn else st
    | none => st
  let step2 :=
    if (transcodeLookup st1 tn).isNone then
      (if o.genTransOk (pathStr src) then transcodeAdd st1 tn (o.genTransValid (pathStr src))
       else st1, true)
    else (st1, false)
  let res :=
    if (transcodeLookup step2.1 tn).isSome then some [".videxer", "transcodes", tn]
    else none
  (res, step2.1, step2.2)

def addUniqueLP (l : List (List String)) (x : List String) : List (List String) :=
  if l.contains x then l else l ++ [x]

/-- `_create_media_item` (utils.py lines 314-439).  `rel` is the parts path
of the containing directory; `siblings` are the directory's entries (used by
thumbnail discovery); the only exception source in the model is `stat`. -/
def createMediaItem (o : Oracles) (fl : Flags) (rel : List String) (name : String)
    (fd : FileData) (subFiles : List (String × FileData)) (thumbNames : List String)
    (siblings : List FSEntry) (st : AssetsState) : Option MediaFields × AssetsState :=
  if !fd.statOk then (none, st)
  else
    let path := rel ++ [name]
    let stem := pyStem name
    let isVideo := VIDEO_EXTS.contains (pyLower (pySuffix name))
    let thumbPaths := (findExistingThumbnails name siblings).map (fun n => rel ++ [n])
    let thumbPaths := thumbNames.foldl (fun tp n => addUniqueLP tp (rel ++ [n])) thumbPaths
    let genThumb :=
      if fl.thumbnails && isVideo && thumbPaths.isEmpty then
        let tn := stem ++ "_thumb.jpg"
        if st.thumbFiles.contains tn then
          (addUniqueLP thumbPaths [".videxer", "thumbnails", tn], st)
        else if o.genThumbOk (pathStr path) then
          (addUniqueLP thumbPaths [".videxer", "thumbnails", tn],
           { st with thumbFiles := st.thumbFiles ++ [tn] })
        else (thumbPaths, st)
      else (thumbPaths, st)
    let thumbPaths := genThumb.1
    let st := genThumb.2
    let genMotion :=
      if fl.motion && isVideo then
        let mn := stem ++ "_motion.mp4"
        let st :=
          if !(st.thumbFiles.contains mn) then
            (if o.genMotionOk (pathStr path) then
               { st with thumbFiles := st.thumbFiles ++ [mn] }
             else st)
          else st
        (if st.thumbFiles.contains mn then some [".videxer", "thumbnails", mn] else none, st)
      else (none, st)
    let motion := genMotion.1
    let st := genMotion.2
    let genTrans :=
      if fl.transcodes && isVideo then
        let r := ensureTranscode o stem path st
        (r.1, r.2.1)
      else (none, st)
    let transcoded := genTrans.1
    let st := genTrans.2
    let subs := subFiles.foldl
      (fun acc sp =>
        let parsed := parseSubtitleFile sp.1 sp.2.content
        if !parsed.text.isEmpty then
          acc ++ [({ file := rel ++ [sp.1], language := detectSubtitleLanguage sp.1,
                     text := parsed.text, timestamps := parsed.timestamps,
                     text_combined := pyLower (pyJoin " " parsed.text) } : SubRec)]
        else acc)
      []
    (some { name := stem, path := path, primary_media := path, size := fd.size,
            modified_time := fd.mtime, media_type := determineMediaType (pySuffix name),
            created_time := none, description := none, thumbs := thumbPaths,
            motion_thumb := motion, transcoded := transcoded, subtitles := subs }, st)

/-! ## The hierarchical collector (utils.py lines 195-311) -/

/-- Subdirectories of the current directory: `sorted(iterdir)` (paths within
one parent compare by name), keeping non-hidden directories. -/
def sortedSubdirs (entries : List FSEntry) : List FSEntry :=
  (insertionSortB (fun a b => strLeB (entryName a) (entryName b)) entries).filter
    (fun e => isDirEntry e && !pyStartsWith (entryName e) ".")

/-- Read and parse `metadata.json` in a directory.  A missing file, a
directory of that name, or a parse failure all leave the metadata `none`
(the code logs and continues). -/
def readMetadataDoc (entries : List FSEntry) : Option MetaDoc :=
  match entries.find? (fun e =>
    match e with
    | .file n _ => n == "metadata.json"
    | .dir _ _ => false) with
  | some (.file _ fd) => fd.sidecar
  | _ => none

/-- Application of the current directory's sidecar to its sole media item
(utils.py lines 245-252): requires a truthy parsed dict, exactly one media
group, and truthy values per field. -/
def applyCurrentMeta (md : Option MetaDoc) (nGroups : Nat) (m : MediaFields) :
    MediaFields :=
  match md with
  | some d =>
    if docTruthy d && nGroups == 1 then
      let m := if optTruthy d.name then { m with name := d.name.getD "" } else m
      let m :=
        if optTruthy d.created_time then { m with created_time := d.created_time } else m
      if optTruthy d.description then { m with description := d.description } else m
    else m
  | none => m

/-- One iteration of the media-group loop: a group with a media file yields
one media item (unless its creation failed), annotated with the current
directory's sidecar when it is the only group. -/
def processGroupsStep (o : Oracles) (fl : Flags) (rel : List String)
    (entries : List FSEntry) (curMeta : Option MetaDoc) (nGroups : Nat)
    (acc : List Item × AssetsState) (g : String × MediaGroup) :
    List Item × AssetsState :=
  match g.2.media with
  | some mf =>
    let r := createMediaItem o fl rel mf.1 mf.2 g.2.subtitles g.2.thumbnails entries acc.2
    match r.1 with
    | some m => (acc.1 ++ [Item.media (applyCurrentMeta curMeta nGroups m)], r.2)
    | none => (acc.1, r.2)
  | none => acc

/-- The media-group loop of `_build_directory_structure` (lines 231-253):
groups sorted by stem, one media item per group that has a media file. -/
def processGroups (o : Oracles) (fl : Flags) (rel : List String)
    (entries : List FSEntry) (st : AssetsState) : List Item × AssetsState :=
  let groups := groupRelatedFiles entries
  (insertionSortB (fun a b => strLeB a.1 b.1) groups).foldl
    (processGroupsStep o fl rel entries (readMetadataDoc entries) groups.length)
    ([], st)

/-- The flattening rule's renaming and overrides (lines 278-291): with a
truthy sidecar, `name = metadata.get('name', subdir.name)` and truthy
`created_time`/`description` override; otherwise the subdirectory's name. -/
def flattenPromote (md : Option MetaDoc) (subdirName : String) (m : MediaFields) :
    MediaFields :=
  match md with
  | some d =>
    if docTruthy d then
      let m := { m with name := d.name.getD subdirName }
      let m :=
        if optTruthy d.created_time then { m with created_time := d.created_time } else m
      if optTruthy d.description then { m with description := d.description } else m
    else { m with name := subdirName }
  | none => { m with name := subdirName }

/-- A kept directory node (lines 292-308), annotated from a truthy sidecar
with truthy values per field. -/
def dirNodeOf (md : Option MetaDoc) (n : String) (p : List String)
    (children : List Item) : Item :=
  match md with
  | some d =>
    if docTruthy d then
      Item.dirNode (if optTruthy d.name then d.name.getD "" else n) p
        (if optTruthy d.created_time then d.created_time else none)
        (if optTruthy d.description then d.description else none) children
    else Item.dirNode n p none none children
  | none => Item.dirNode n p none none children

/-- One iteration of the subdirectory loop (lines 256-309) for the
subdirectory `n` with entries `es`: recurse (`child`), then flatten when the
contents are exactly one media item and no directory, keep a directory node
when non-empty otherwise, drop when empty. -/
def subdirContribution
    (child : List FSEntry → List String → AssetsState → List Item × AssetsState)
    (n : String) (es : List FSEntry) (rel : List String) (st : AssetsState) :
    List Item × AssetsState :=
  let md := readMetadataDoc es
  let r := child es (rel ++ [n]) st
  let contents := r.1
  let medias := contents.filter Item.isMedia
  let dirsIn := contents.filter Item.isDir
  let contrib :=
    if medias.length == 1 && dirsIn.length == 0 then
      match medias with
      | Item.media m :: _ => [Item.media (flattenPromote md n m)]
      | _ => []
    else if !contents.isEmpty then [dirNodeOf md n (rel ++ [n]) contents]
    else []
  (contrib, r.2)

/-- The subdirectory loop, parameterized by the recursive call. -/
def buildSubdirsWith
    (child : List FSEntry → List String → AssetsState → List Item × AssetsState) :
    List FSEntry → List String → AssetsState → List Item × AssetsState
  | [], _, st => ([], st)
  | .file _ _ :: rest, rel, st => buildSubdirsWith child rest rel st
  | .dir n es :: rest, rel, st =>
    let r := subdirContribution child n es rel st
    let rr := buildSubdirsWith child rest rel r.2
    (r.1 ++ rr.1, rr.2)

/-- Structural weight of a filesystem forest.  Only used in fuel-sufficiency
hypotheses and proofs, never in executable positions: the Python recursion
is unbounded, and the embedding fixes a fuel larger than this weight. -/
def weightEntries : List FSEntry → Nat
  | [] => 0
  | .file _ _ :: rest => 1 + weightEntries rest
  | .dir _ es :: rest => 1 + weightEntries es + weightEntries rest

/-- `_build_directory_structure`, fueled so the definition computes by
kernel reduction; with fuel above `weightEntries` it equals the Python
recursion (see `buildDirF_irrel`). -/
def buildDirF (o : Oracles) (fl : Flags) :
    Nat → List FSEntry → List String → AssetsState → List Item × AssetsState
  | 0, _, _, st => ([], st)
  | fuel + 1, entries, rel, st =>
    let pg := processGroups o fl rel entries st
    let sub := buildSubdirsWith (buildDirF o fl fuel) (sortedSubdirs entries) rel pg.2
    (pg.1 ++ sub.1, sub.2)

/-- `validate_and_purge_bad_transcodes` (utils.py lines 653-679): delete
every `.mp4` file of the transcodes directory that fails validation. -/
def validateAndPurge (st : AssetsState) : AssetsState :=
  let kept := st.transcodeFiles.filter (fun p => !(pyLower (pySuffix p.1) == ".mp4") || p.2)
  { st with transcodeFiles := kept }

/-- `collect_media_items` (utils.py lines 442-467): preflight purge when
transcodes are enabled, then build from the root.  `fuel` is any bound above
`weightEntries rootEntries`; `buildDirF_irrel` shows the value is then
independent of the bound chosen. -/
def collectMediaItems (o : Oracles) (fl : Flags) (fuel : Nat)
    (rootEntries : List FSEntry) (st : AssetsState) : List Item × AssetsState :=
  let st := if fl.transcodes then validateAndPurge st else st
  buildDirF o fl fuel rootEntries [] st

/-! ## Index assembly (indexer.py lines 70-274) -/

/-- `_flatten_items` (indexer.py lines 70-88): the media leaves of the
hierarchy in preorder (media items appended, directory children recursed
into).  Fueled; any fuel above the total number of item nodes is enough,
and the items handed to it by `build_index` number at most the filesystem
weight that bounds the collector's own fuel. -/
def flattenItemsF : Nat → List Item → List MediaFields
  | 0, _ => []
  | _ + 1, [] => []
  | n + 1, Item.media m :: rest => m :: flattenItemsF n rest
  | n + 1, Item.dirNode _ _ _ _ children :: rest =>
    flattenItemsF n children ++ flattenItemsF n rest

/-- Navigate the filesystem tree along a parts path. -/
def fsLookupDir (entries : List FSEntry) : List String → Option (List FSEntry)
  | [] => some entries
  | p :: rest =>
    match entries.find? (fun e => entryName e == p) with
    | some (.dir _ es) => fsLookupDir es rest
    | _ => none

/-- `metadata.json` of the directory at the given parts path. -/
def readMetadataAt (rootEntries : List FSEntry) (dirPath : List String) :
    Option MetaDoc :=
  match fsLookupDir rootEntries dirPath with
  | some es => readMetadataDoc es
  | none => none

/-- `_process_media_item` (indexer.py lines 147-213): filename-derived
`created_time` when the item's is falsy, a re-read of the co-located
`metadata.json` (key-present values win for name and created_time, and the
description is taken only from there), then the stem as last-resort name.
Exceptions cannot arise in the model, so the result is always an item. -/
def processMediaItem (rootEntries : List FSEntry) (m : MediaFields) : ProcItem :=
  let name := m.name
  let created := m.created_time
  let created :=
    if optTruthy created then created
    else
      match (extractMetadataFromFilename (pathStr m.path)).created_time with
      | some iso => some iso
      | none => created
  let md := readMetadataAt rootEntries m.path.dropLast
  let name :=
    match md with
    | some d => d.name.getD name
    | none => name
  let created :=
    match md with
    | some d =>
      match d.created_time with
      | some v => some v
      | none => created
    | none => created
  let desc :=
    match md with
    | some d => d.description
    | none => none
  let name := if name == "" then pathStemOfStr (pathStr m.path) else name
  { name := name, created_time := created, size := m.size, media_type := m.media_type,
    description := desc, path := m.path, primary_media := m.primary_media,
    thumbs := m.thumbs, thumb_best := m.thumbs.head?, motion_thumb := m.motion_thumb,
    transcoded := m.transcoded, subtitles := m.subtitles }

/-- `cleanup_old_transcodes` (utils.py lines 618-636): delete every file of
the transcodes directory whose relative path is not in the current set
(`unlink` succeeds in the model). -/
def cleanupOldTranscodes (st : AssetsState) (current : List (List String)) :
    AssetsState :=
  let kept := st.transcodeFiles.filter (fun p => current.contains [".videxer", "transcodes", p.1])
  { st with transcodeFiles := kept }

/-- The set of `transcoded` paths of the processed items (indexer.py lines
111-118); a list used only through membership. -/
def currentTranscodesOf (processed : List ProcItem) : List (List String) :=
  processed.foldl
    (fun acc it =>
      match it.transcoded with
      | some p => if acc.contains p then acc else acc ++ [p]
      | none => acc)
    []

/-- The catalog document returned by `build_index` (minus the private
subtitle-index field, which is returned separately). -/
structure Document where
  items : List Item
  structureVal : String
  total_items : Nat
  search_index : SearchIndexL
deriving Repr

/-- `build_index` (indexer.py lines 91-144).  The post-index stripping of
subtitle payloads mutates only the processed copies, which are not part of
the output document; the document's `items` are the hierarchical ones. -/
def buildIndexFull (o : Oracles) (fl : Flags) (fuel : Nat)
    (rootEntries : List FSEntry) (st : AssetsState) :
    Document × SubIdx × AssetsState :=
  let structure0 := detectMediaStructure rootEntries
  let collected := collectMediaItems o fl fuel rootEntries st
  let hierarchical := collected.1
  let st1 := collected.2
  let processed := (flattenItemsF fuel hierarchical).map (processMediaItem rootEntries)
  let st2 := if fl.transcodes then cleanupOldTranscodes st1 (currentTranscodesOf processed) else st1
  let base := buildBaseSearchIndex processed
  let subI := buildSubtitleIndex processed
  ({ items := hierarchical, structureVal := structure0.value,
     total_items := processed.length, search_index := base }, subI, st2)

/-! ## Persistence and the CLI entry (indexer.py lines 250-274, cli.py) -/

inductive WriteEvent where
  | logSetup (dirPath : List String)
  | writeJson (path : List String) (doc : Document)
  | writeSubs (path : List String) (subI : SubIdx)
  | writeHtml (path : List String)
  | writeConfig
deriving Repr

/-- `write_index_files`: build the whole index in memory, then emit the
JSON document (without the private subtitle index), the subtitle index
document, and the static HTML, in that order.  Every write event carries the
complete value being persisted. -/
def writeIndexFiles (o : Oracles) (fl : Flags) (fuel : Nat)
    (rootEntries : List FSEntry) (st : AssetsState) (jsonPath htmlPath : List String) :
    List WriteEvent × AssetsState :=
  let r := buildIndexFull o fl fuel rootEntries st
  ([WriteEvent.writeJson jsonPath r.1,
    WriteEvent.writeSubs (jsonPath.dropLast ++ ["index.subtitles.json"]) r.2.1,
    WriteEvent.writeHtml htmlPath], r.2.2)

/-- The world the CLI runs against: whether the input path exists and is a
directory, and the tree and assets found when it is. -/
structure World where
  rootExists : Bool
  rootIsDir : Bool
  rootEntries : List FSEntry
  assets : AssetsState

/-- The `cli` command (cli.py lines 38-131) with the default output paths
and the post-merge flag values: the existence check precedes every effect;
on the happy path, logging setup, the three index writes and the final
config save happen in order. -/
def cliRun (o : Oracles) (fl : Flags) (fuel : Nat) (w : World) :
    Except String (List WriteEvent) :=
  if !(w.rootExists && w.rootIsDir) then Except.error "Input directory not found"
  else
    let r := writeIndexFiles o fl fuel w.rootEntries w.assets ["index.json"] ["index.html"]
    Except.ok (WriteEvent.logSetup [".videxer"] :: r.1 ++ [WriteEvent.writeConfig])

/-! ## Concrete fixtures used by witnesses and counterexamples -/

/-- Collaborators that always succeed and produce valid artifacts. -/
def allOk : Oracles := ⟨fun _ => true, fun _ => true, fun _ => true, fun _ => true⟩

/-- All generation flags off. -/
def noGen : Flags := ⟨false, false, false⟩

def emptyAssets : AssetsState := ⟨[], []⟩

/-- A plain media file's stat data. -/
def c1fd : FileData := ⟨100, 5, "", none, true⟩

/-- A subdirectory holding exactly one media file. -/
def c1sub : List FSEntry := [FSEntry.file "v.mp4" c1fd]

/-- A subdirectory holding two media files. -/
def c1two : List FSEntry := [FSEntry.file "a.mp4" c1fd, FSEntry.file "b.mp4" c1fd]

/-- A parent directory: one flattening subdirectory, one kept subdirectory,
one plain media file. -/
def c1entries : List FSEntry :=
  [FSEntry.dir "Holiday" c1sub, FSEntry.dir "Stuff" c1two, FSEntry.file "clip.mp4" c1fd]

/-! ## Claim theorems -/

/-- C9: `_determine_media_type` is total with values among the four media
kinds; `m4a` is listed in both the video and the audio extension sets, and
because the video set is tested first, `.m4a` files classify as video. -/
theorem c9_media_kind_total_and_m4a_video :
    (∀ ext : String,
      determineMediaType ext = "video" ∨ determineMediaType ext = "audio" ∨
      determineMediaType ext = "image" ∨ determineMediaType ext = "unknown") ∧
    VIDEO_EXTS_NO_DOT.contains "m4a" = true ∧
    AUDIO_EXTS_NO_DOT.contains "m4a" = true ∧
    determineMediaType ".m4a" = "video" := by
  refine ⟨fun ext => ?_, by decide, by decide, rfl⟩
  simp only [determineMediaType]
  split
  · exact Or.inl rfl
  · split
    · exact Or.inr (Or.inl rfl)
    · split
      · exact Or.inr (Or.inr (Or.inl rfl))
      · exact Or.inr (Or.inr (Or.inr rfl))

/-- The nested-capability flag of the classifier, in existential form. -/
theorem nestedAny_iff (es : List FSEntry) :
    (es.any (fun e =>
      match e with
      | .dir _ es => es.any isMediaFile
      | .file _ _ => false)) = true ↔
    ∃ n subEs, FSEntry.dir n subEs ∈ es ∧ ∃ f ∈ subEs, isMediaFile f = true := by
  rw [List.any_eq_true]
  constructor
  · rintro ⟨e, he, hp⟩
    cases e with
    | file n fd => simp at hp
    | dir n sub =>
      rw [List.any_eq_true] at hp
      obtain ⟨f, hf, hm⟩ := hp
      exact ⟨n, sub, he, f, hf, hm⟩
  · rintro ⟨n, sub, hmem, f, hf, hm⟩
    refine ⟨.dir n sub, hmem, ?_⟩
    rw [List.any_eq_true]
    exact ⟨f, hf, hm⟩

theorem flatAny_iff (es : List FSEntry) :
    es.any isMediaFile = true ↔ ∃ e ∈ es, isMediaFile e = true := List.any_eq_true

/-- C5: the structure classifier looks only at the root's entries and their
direct children: `mixed` exactly when a directly contained media file and a
media-bearing immediate subdirectory both exist, `flat` exactly when only
the former exists, and `nested` exactly when no direct media file exists
(covering both the nested-only and the empty root). -/
theorem c5_structure_classification (es : List FSEntry) :
    (detectMediaStructure es = .mixed ↔
      (∃ e ∈ es, isMediaFile e = true) ∧
      (∃ n subEs, FSEntry.dir n subEs ∈ es ∧ ∃ f ∈ subEs, isMediaFile f = true)) ∧
    (detectMediaStructure es = .flat ↔
      (∃ e ∈ es, isMediaFile e = true) ∧
      ¬(∃ n subEs, FSEntry.dir n subEs ∈ es ∧ ∃ f ∈ subEs, isMediaFile f = true)) ∧
    (detectMediaStructure es = .nested ↔ ¬(∃ e ∈ es, isMediaFile e = true)) := by
  have hf := flatAny_iff es
  have hn := nestedAny_iff es
  unfold detectMediaStructure
  cases h1 : es.any isMediaFile with
  | true =>
    have hP : ∃ e ∈ es, isMediaFile e = true := hf.mp h1
    cases h2 : (es.any (fun e =>
        match e with
        | .dir _ es => es.any isMediaFile
        | .file _ _ => false)) with
    | true =>
      have hQ : ∃ n subEs, FSEntry.dir n subEs ∈ es ∧ ∃ f ∈ subEs, isMediaFile f = true :=
        hn.mp h2
      simp only [Bool.and_self, if_true]
      refine ⟨?_, ?_, ?_⟩ <;> simp [hP, hQ]
    | false =>
      have hQn : ¬∃ n subEs, FSEntry.dir n subEs ∈ es ∧ ∃ f ∈ subEs, isMediaFile f = true := by
        rw [← hn]; simp [h2]
      simp only [Bool.and_false, Bool.false_eq_true, if_false, if_true]
      refine ⟨?_, ?_, ?_⟩ <;> simp [hP, hQn]
  | false =>
    have hPn : ¬∃ e ∈ es, isMediaFile e = true := by rw [← hf]; simp [h1]
    simp only [Bool.false_and, Bool.false_eq_true, if_false]
    cases h2 : (es.any (fun e =>
        match e with
        | .dir _ es => es.any isMediaFile
        | .file _ _ => false)) with
    | true => refine ⟨?_, ?_, ?_⟩ <;> simp [hPn]
    | false => refine ⟨?_, ?_, ?_⟩ <;> simp [hPn]

/-- Witness for C5: a root holding a media file and a media-bearing
subdirectory classifies as mixed, via the theorem's first equivalence. -/
theorem c5_structure_classification_witness :
    detectMediaStructure
      [FSEntry.file "a.mp4" ⟨1, 0, "", none, true⟩,
       FSEntry.dir "d" [FSEntry.file "b.mp3" ⟨1, 0, "", none, true⟩]] = .mixed :=
  (c5_structure_classification _).1.mpr
    ⟨⟨FSEntry.file "a.mp4" ⟨1, 0, "", none, true⟩, by simp, by decide⟩,
     "d", [FSEntry.file "b.mp3" ⟨1, 0, "", none, true⟩], by simp,
     FSEntry.file "b.mp3" ⟨1, 0, "", none, true⟩, by simp, by decide⟩

/-- C6: parsing the two-block numbered subtitle text yields exactly the two
entries, with start timestamps and texts in block order. -/
theorem c6_srt_round_trip :
    parseSubtitleFile "clip.srt"
        "1\n00:00:01,000 --> 00:00:04,000\nHello world\n\n2\n00:00:05,000 --> 00:00:07,000\nGoodbye" =
      ⟨["Hello world", "Goodbye"], ["00:00:01,000", "00:00:05,000"]⟩ := by
  rfl

/-- A single run of the transcode block from any state whose artifact
probes valid returns the artifact unchanged with no encoding request. -/
theorem ensureTranscode_noop (o : Oracles) (stem : String) (src : List String)
    (st' : AssetsState)
    (h : transcodeLookup st' (stem ++ "_web.mp4") = some true) :
    ensureTranscode o stem src st' =
      (some [".videxer", "transcodes", stem ++ "_web.mp4"], st', false) := by
  unfold ensureTranscode
  simp [h]

/-- C7: when a run of the transcode-ensuring block leaves an artifact that
probes as valid, running the block again returns that artifact, leaves the
state unchanged, and issues no encoding request. -/
theorem c7_ensure_transcode_idempotent (o : Oracles) (stem : String)
    (src : List String) (st : AssetsState) :
    transcodeLookup (ensureTranscode o stem src st).2.1 (stem ++ "_web.mp4") = some true →
    ensureTranscode o stem src (ensureTranscode o stem src st).2.1 =
      (some [".videxer", "transcodes", stem ++ "_web.mp4"],
       (ensureTranscode o stem src st).2.1, false) := by
  intro h
  exact ensureTranscode_noop o stem src _ h

/-! ### Lookup, key and posting lemmas for the inverted indexes -/

theorem lookup_append_isSome [BEq α] (l1 l2 : List (α × β)) (a : α) :
    ((l1 ++ l2).lookup a).isSome = ((l1.lookup a).isSome || (l2.lookup a).isSome) := by
  induction l1 with
  | nil => simp [List.lookup]
  | cons p rest ih =>
    cases p with
    | mk k v => cases h : a == k <;> simp [List.lookup, h, ih]

theorem lookup_map_isSome [BEq α] (d : List (α × β)) (f : α × β → α × β)
    (hf : ∀ p, (f p).1 = p.1) (a : α) :
    ((d.map f).lookup a).isSome = (d.lookup a).isSome := by
  induction d with
  | nil => rfl
  | cons p rest ih =>
    have h1 := hf p
    simp only [List.map_cons, List.lookup]
    rw [h1]
    cases h : a == p.1 <;> simp [h, ih]

theorem insertTokenOcc_keys (d : List (String × List Nat)) (w : String) (idx : Nat)
    (tok : String) :
    ((insertTokenOcc d w idx).lookup tok).isSome = true →
    (d.lookup tok).isSome = true ∨ tok = w := by
  unfold insertTokenOcc
  by_cases hw : (d.lookup w).isSome = true
  · rw [if_pos hw]
    intro h
    rw [lookup_map_isSome] at h
    · exact Or.inl h
    · intro p; by_cases hp : p.1 == w <;> simp [hp]
  · rw [if_neg hw]
    intro h
    rw [lookup_append_isSome] at h
    rcases Bool.or_eq_true_iff.mp h with h' | h'
    · exact Or.inl h'
    · right
      simp only [List.lookup] at h'
      cases heq : tok == w with
      | true => exact eq_of_beq heq
      | false => rw [heq] at h'; simp at h'

theorem foldl_insert_keys (idx : Nat) (tok : String) (ws : List String) :
    ∀ d : List (String × List Nat),
    (((ws.foldl (fun d w => if 3 ≤ w.data.length then insertTokenOcc d w idx else d) d).lookup
        tok).isSome = true) →
    (d.lookup tok).isSome = true ∨ (tok ∈ ws ∧ 3 ≤ tok.data.length) := by
  induction ws with
  | nil => intro d h; exact Or.inl h
  | cons w rest ih =>
    intro d h
    rw [List.foldl_cons] at h
    rcases ih _ h with h' | h'
    · by_cases hlen : 3 ≤ w.data.length
      · rw [if_pos hlen] at h'
        rcases insertTokenOcc_keys _ _ _ _ h' with h'' | rfl
        · exact Or.inl h''
        · exact Or.inr ⟨List.mem_cons_self _ _, hlen⟩
      · rw [if_neg hlen] at h'
        exact Or.inl h'
    · exact Or.inr ⟨List.mem_cons_of_mem _ h'.1, h'.2⟩

theorem addToSearchIndex_keys (d : List (String × List Nat)) (text : String)
    (idx : Nat) (tok : String) :
    ((addToSearchIndex d text idx).lookup tok).isSome = true →
    (d.lookup tok).isSome = true ∨ (tok ∈ findAllWords text ∧ 3 ≤ tok.data.length) := by
  intro h
  exact foldl_insert_keys idx tok (findAllWords text) d h

theorem wordRunsAcc_mem (cs : List Char) :
    ∀ (acc : List Char), ∀ run ∈ wordRunsAcc cs acc, ∀ c ∈ run,
      (c ∈ cs ∧ isWordChar c = true) ∨ c ∈ acc := by
  induction cs with
  | nil =>
    intro acc run hrun c hc
    by_cases ha : acc.isEmpty
    · rw [wordRunsAcc, if_pos ha] at hrun
      simp at hrun
    · rw [wordRunsAcc, if_neg ha] at hrun
      simp only [List.mem_singleton] at hrun
      subst hrun
      exact Or.inr (List.mem_reverse.mp hc)
  | cons a rest ih =>
    intro acc run hrun c hc
    by_cases hw : isWordChar a = true
    · rw [wordRunsAcc, if_pos hw] at hrun
      rcases ih (a :: acc) run hrun c hc with ⟨hin, hwc⟩ | hin
      · exact Or.inl ⟨List.mem_cons_of_mem _ hin, hwc⟩
      · rcases List.mem_cons.mp hin with rfl | hin'
        · exact Or.inl ⟨List.mem_cons_self _ _, hw⟩
        · exact Or.inr hin'
    · rw [wordRunsAcc, if_neg hw] at hrun
      by_cases ha : acc.isEmpty
      · rw [if_pos ha] at hrun
        rcases ih [] run hrun c hc with ⟨hin, hwc⟩ | hin
        · exact Or.inl ⟨List.mem_cons_of_mem _ hin, hwc⟩
        · simp at hin
      · rw [if_neg ha] at hrun
        rcases List.mem_cons.mp hrun with rfl | hmore
        · exact Or.inr (List.mem_reverse.mp hc)
        · rcases ih [] run hmore c hc with ⟨hin, hwc⟩ | hin
          · exact Or.inl ⟨List.mem_cons_of_mem _ hin, hwc⟩
          · simp at hin

/-- Every character of a maximal word run is a word character drawn from
the scanned text. -/
theorem wordRuns_mem (cs : List Char) :
    ∀ run ∈ wordRuns cs, ∀ c ∈ run, c ∈ cs ∧ isWordChar c = true := by
  intro run hrun c hc
  rcases wordRunsAcc_mem cs [] run hrun c hc with h | h
  · exact h
  · simp at h

/-- ASCII lower-casing is idempotent. -/
theorem toLower_idem (c : Char) : Char.toLower (Char.toLower c) = Char.toLower c := by
  by_cases h : 65 ≤ c.toNat ∧ c.toNat ≤ 90
  · have h1 : Char.toLower c = Char.ofNat (c.toNat + 32) := by
      unfold Char.toLower
      rw [if_pos h]
    rw [h1]
    obtain ⟨ha, hb⟩ := h
    set n := c.toNat with hn
    interval_cases n <;> decide
  · have h1 : Char.toLower c = c := by
      unfold Char.toLower
      rw [if_neg h]
    rw [h1, h1]

theorem pyLower_data (s : String) : (pyLower s).data = s.data.map Char.toLower := rfl

/-- Every character of a lower-cased string is fixed by lower-casing. -/
theorem mem_pyLower_fixed (s : String) (c : Char) (h : c ∈ (pyLower s).data) :
    Char.toLower c = c := by
  rw [pyLower_data] at h
  rcases List.mem_map.mp h with ⟨c0, -, rfl⟩
  exact toLower_idem c0

/-- The well-formedness the light-index tokens satisfy: length at least 3,
word characters only, and invariance under lower-casing (case-folded). -/
def tokenWellFormed (tok : String) : Prop :=
  3 ≤ tok.data.length ∧ (∀ c ∈ tok.data, isWordChar c = true) ∧ pyLower tok = tok

theorem tokenWellFormed_of_word (s tok : String)
    (h1 : tok ∈ findAllWords (pyLower s)) (h2 : 3 ≤ tok.data.length) :
    tokenWellFormed tok := by
  rcases List.mem_map.mp h1 with ⟨run, hrun, rfl⟩
  refine ⟨h2, ?_, ?_⟩
  · intro c hc
    exact (wordRuns_mem _ run hrun c hc).2
  · show pyLower ⟨run⟩ = (⟨run⟩ : String)
    have hmap : run.map Char.toLower = run := by
      have h' : run.map Char.toLower = run.map id := by
        apply List.map_congr_left
        intro c hc
        have hcin : c ∈ (pyLower s).data := (wordRuns_mem _ run hrun c hc).1
        simpa using mem_pyLower_fixed s c hcin
      rw [h', List.map_id]
    show (⟨run.map Char.toLower⟩ : String) = ⟨run⟩
    rw [hmap]

/-- A key present after one base-index step was present before, or is a
well-formed token of the item's lower-cased name or description. -/
theorem baseIndexStep_keys (acc : SearchIndexL) (p : Nat × ProcItem) (tok : String) :
    (((baseIndexStep acc p).name_terms.lookup tok).isSome = true ∨
     ((baseIndexStep acc p).description_terms.lookup tok).isSome = true) →
    (((acc.name_terms.lookup tok).isSome = true ∨
      (acc.description_terms.lookup tok).isSome = true) ∨ tokenWellFormed tok) := by
  simp only [baseIndexStep]
  by_cases hnm : (pyLower p.2.name) != ""
  · rw [if_pos hnm]
    by_cases hds : (p.2.description.getD "") != ""
    · rw [if_pos hds]
      rintro (h | h)
      · rcases addToSearchIndex_keys _ _ _ _ h with h' | ⟨hmem, hlen⟩
        · exact Or.inl (Or.inl h')
        · exact Or.inr (tokenWellFormed_of_word _ _ hmem hlen)
      · rcases addToSearchIndex_keys _ _ _ _ h with h' | ⟨hmem, hlen⟩
        · exact Or.inl (Or.inr h')
        · exact Or.inr (tokenWellFormed_of_word _ _ hmem hlen)
    · rw [if_neg hds]
      rintro (h | h)
      · rcases addToSearchIndex_keys _ _ _ _ h with h' | ⟨hmem, hlen⟩
        · exact Or.inl (Or.inl h')
        · exact Or.inr (tokenWellFormed_of_word _ _ hmem hlen)
      · exact Or.inl (Or.inr h)
  · rw [if_neg hnm]
    by_cases hds : (p.2.description.getD "") != ""
    · rw [if_pos hds]
      rintro (h | h)
      · exact Or.inl (Or.inl h)
      · rcases addToSearchIndex_keys _ _ _ _ h with h' | ⟨hmem, hlen⟩
        · exact Or.inl (Or.inr h')
        · exact Or.inr (tokenWellFormed_of_word _ _ hmem hlen)
    · rw [if_neg hds]
      rintro (h | h)
      · exact Or.inl (Or.inl h)
      · exact Or.inl (Or.inr h)

theorem buildBase_keys_aux (ps : List (Nat × ProcItem)) :
    ∀ acc : SearchIndexL,
    (∀ tok, ((acc.name_terms.lookup tok).isSome = true ∨
             (acc.description_terms.lookup tok).isSome = true) → tokenWellFormed tok) →
    ∀ tok, (((ps.foldl baseIndexStep acc).name_terms.lookup tok).isSome = true ∨
            ((ps.foldl baseIndexStep acc).description_terms.lookup tok).isSome = true) →
    tokenWellFormed tok := by
  induction ps with
  | nil => intro acc hacc tok h; exact hacc tok h
  | cons p rest ih =>
    intro acc hacc tok h
    rw [List.foldl_cons] at h
    refine ih _ ?_ tok h
    intro tok' h'
    rcases baseIndexStep_keys acc p tok' h' with h'' | h''
    · exact hacc tok' h''
    · exact h''

/-- C2 counterexample: indexing a file named `foo_bar.mp4` stores the key
`foo_bar` in the light index's name terms, and that token is not made of
alphanumeric characters only (it contains an underscore), refuting the
claim as stated. -/
theorem c2_token_alnum_counterexample :
    (((buildIndexFull allOk noGen 9 [FSEntry.file "foo_bar.mp4" ⟨1, 0, "", none, true⟩]
        emptyAssets).1.search_index.name_terms.lookup "foo_bar").isSome = true) ∧
    "foo_bar".data.all (fun c => c.isAlphanum) = false := by
  constructor
  · decide
  · decide

/-- C2 amended: every token key of the built light index (name terms or
description terms) has length at least 3 and consists only of case-folded
word characters: alphanumerics or underscore (the tokenizer's `\w` class
admits the underscore), each fixed by lower-casing. -/
theorem c2_light_index_tokens_amended (items : List ProcItem) (tok : String) :
    (((buildBaseSearchIndex items).name_terms.lookup tok).isSome = true ∨
     ((buildBaseSearchIndex items).description_terms.lookup tok).isSome = true) →
    3 ≤ tok.data.length ∧ (∀ c ∈ tok.data, isWordChar c = true) ∧ pyLower tok = tok := by
  intro h
  have base : ∀ tok' : String,
      ((SearchIndexL.mk [] [] []).name_terms.lookup tok').isSome = true ∨
      ((SearchIndexL.mk [] [] []).description_terms.lookup tok').isSome = true →
      tokenWellFormed tok' := by
    intro tok' h'
    rcases h' with h' | h' <;> simp [List.lookup] at h'
  exact buildBase_keys_aux items.enum ⟨[], [], []⟩ base tok h

/-- Witness for C2 amended: the token `hello` stored for an item named
`Hello` satisfies the amended well-formedness. -/
theorem c2_light_index_tokens_amended_witness :
    3 ≤ "hello".data.length ∧ (∀ c ∈ "hello".data, isWordChar c = true) ∧
      pyLower "hello" = "hello" :=
  c2_light_index_tokens_amended
    [⟨"Hello", none, 0, "video", none, ["h.mp4"], ["h.mp4"], [], none, none, none, []⟩]
    "hello" (Or.inl (by decide))

theorem lookup_append_eq [BEq α] (l1 l2 : List (α × β)) (a : α) :
    (l1 ++ l2).lookup a =
      (match l1.lookup a with
       | some v => some v
       | none => l2.lookup a) := by
  induction l1 with
  | nil => simp [List.lookup]
  | cons p rest ih =>
    cases p with
    | mk k v => cases h : a == k <;> simp [List.lookup, h, ih]

theorem insertTokenOcc_map_postings (w : String) (idx : Nat) :
    ∀ (d : List (String × List Nat)) (tok : String) (l : List Nat),
    ((d.map (fun p =>
        if p.1 == w then (p.1, if p.2.contains idx then p.2 else p.2 ++ [idx]) else p)).lookup
      tok) = some l →
    ∀ i ∈ l, (∃ l0, d.lookup tok = some l0 ∧ i ∈ l0) ∨ i = idx := by
  intro d
  induction d with
  | nil => intro tok l h; simp [List.lookup] at h
  | cons p rest ih =>
    intro tok l h i hi
    by_cases hpw : (p.1 == w) = true
    · rw [List.map_cons, if_pos hpw] at h
      simp only [List.lookup] at h
      cases htok : (tok == p.1) with
      | true =>
        rw [htok] at h
        simp only [Option.some.injEq] at h
        subst h
        by_cases hc : p.2.contains idx = true
        · rw [if_pos hc] at hi
          exact Or.inl ⟨p.2, by simp [List.lookup, htok], hi⟩
        · rw [if_neg hc] at hi
          rcases List.mem_append.mp hi with hi' | hi'
          · exact Or.inl ⟨p.2, by simp [List.lookup, htok], hi'⟩
          · simp only [List.mem_singleton] at hi'
            exact Or.inr hi'
      | false =>
        rw [htok] at h
        rcases ih tok l h i hi with ⟨l0, h0, hi0⟩ | h'
        · exact Or.inl ⟨l0, by simp [List.lookup, htok, h0], hi0⟩
        · exact Or.inr h'
    · rw [List.map_cons, if_neg hpw] at h
      simp only [List.lookup] at h
      cases htok : (tok == p.1) with
      | true =>
        rw [htok] at h
        simp only [Option.some.injEq] at h
        subst h
        exact Or.inl ⟨p.2, by simp [List.lookup, htok], hi⟩
      | false =>
        rw [htok] at h
        rcases ih tok l h i hi with ⟨l0, h0, hi0⟩ | h'
        · exact Or.inl ⟨l0, by simp [List.lookup, htok, h0], hi0⟩
        · exact Or.inr h'

theorem insertTokenOcc_postings (d : List (String × List Nat)) (w : String) (idx : Nat)
    (tok : String) (l : List Nat) :
    (insertTokenOcc d w idx).lookup tok = some l →
    ∀ i ∈ l, (∃ l0, d.lookup tok = some l0 ∧ i ∈ l0) ∨ i = idx := by
  unfold insertTokenOcc
  by_cases hw : (d.lookup w).isSome = true
  · rw [if_pos hw]
    exact insertTokenOcc_map_postings w idx d tok l
  · rw [if_neg hw]
    intro h i hi
    rw [lookup_append_eq] at h
    cases hd : d.lookup tok with
    | some l0 =>
      rw [hd] at h
      simp only [Option.some.injEq] at h
      subst h
      exact Or.inl ⟨l0, rfl, hi⟩
    | none =>
      rw [hd] at h
      simp only [List.lookup] at h
      cases htok : (tok == w) with
      | true =>
        rw [htok] at h
        simp only [Option.some.injEq] at h
        subst h
        simp only [List.mem_singleton] at hi
        exact Or.inr hi
      | false => rw [htok] at h; simp at h

theorem foldl_insert_postings (idx : Nat) (tok : String) (ws : List String) :
    ∀ (d : List (String × List Nat)) (l : List Nat),
    ((ws.foldl (fun d w => if 3 ≤ w.data.length then insertTokenOcc d w idx else d) d).lookup
      tok) = some l →
    ∀ i ∈ l, (∃ l0, d.lookup tok = some l0 ∧ i ∈ l0) ∨ i = idx := by
  induction ws with
  | nil => intro d l h i hi; exact Or.inl ⟨l, h, hi⟩
  | cons w rest ih =>
    intro d l h i hi
    rw [List.foldl_cons] at h
    rcases ih _ l h i hi with ⟨l0, h0, hi0⟩ | h'
    · by_cases hlen : 3 ≤ w.data.length
      · rw [if_pos hlen] at h0
        exact insertTokenOcc_postings _ _ _ _ _ h0 i hi0
      · rw [if_neg hlen] at h0
        exact Or.inl ⟨l0, h0, hi0⟩
    · exact Or.inr h'

/-- Every posting list entry of an index is below `N` once the inserted
ordinals are. -/
def postingsBounded (d : List (String × List Nat)) (N : Nat) : Prop :=
  ∀ tok l, d.lookup tok = some l → ∀ i ∈ l, i < N

theorem addToSearchIndex_bounded (d : List (String × List Nat)) (text : String)
    (idx N : Nat) (hd : postingsBounded d N) (hidx : idx < N) :
    postingsBounded (addToSearchIndex d text idx) N := by
  intro tok l h i hi
  rcases foldl_insert_postings idx tok (findAllWords text) d l h i hi with ⟨l0, h0, hi0⟩ | rfl
  · exact hd tok l0 h0 i hi0
  · exact hidx

theorem postingsBounded_nil (N : Nat) : postingsBounded [] N := by
  intro tok l h
  simp [List.lookup] at h

theorem baseIndexStep_bounded (acc : SearchIndexL) (p : Nat × ProcItem) (N : Nat)
    (h1 : postingsBounded acc.name_terms N) (h2 : postingsBounded acc.description_terms N)
    (hp : p.1 < N) :
    postingsBounded (baseIndexStep acc p).name_terms N ∧
    postingsBounded (baseIndexStep acc p).description_terms N := by
  simp only [baseIndexStep]
  by_cases hnm : (pyLower p.2.name) != "" <;> by_cases hds : (p.2.description.getD "") != "" <;>
    simp only [hnm, hds, if_pos, if_neg, if_true, if_false] <;>
    exact ⟨by first
            | exact h1
            | exact addToSearchIndex_bounded _ _ _ _ h1 hp,
           by first
            | exact h2
            | exact addToSearchIndex_bounded _ _ _ _ h2 hp⟩

theorem baseIndexStep_item_map (acc : SearchIndexL) (p : Nat × ProcItem) :
    (baseIndexStep acc p).item_map = acc.item_map ++ [procItemId p.2] := by
  simp only [baseIndexStep]
  split <;> split <;> rfl

theorem foldl_base_item_map_len (ps : List (Nat × ProcItem)) :
    ∀ acc : SearchIndexL,
    (ps.foldl baseIndexStep acc).item_map.length = acc.item_map.length + ps.length := by
  induction ps with
  | nil => intro acc; simp
  | cons p rest ih =>
    intro acc
    rw [List.foldl_cons, ih, baseIndexStep_item_map]
    simp
    omega

theorem foldl_base_bounded (ps : List (Nat × ProcItem)) :
    ∀ (acc : SearchIndexL) (N : Nat), (∀ p ∈ ps, p.1 < N) →
    postingsBounded acc.name_terms N → postingsBounded acc.description_terms N →
    postingsBounded (ps.foldl baseIndexStep acc).name_terms N ∧
    postingsBounded (ps.foldl baseIndexStep acc).description_terms N := by
  induction ps with
  | nil => intro acc N _ h1 h2; exact ⟨h1, h2⟩
  | cons p rest ih =>
    intro acc N hps h1 h2
    rw [List.foldl_cons]
    have hstep := baseIndexStep_bounded acc p N h1 h2 (hps p (List.mem_cons_self _ _))
    exact ih _ N (fun q hq => hps q (List.mem_cons_of_mem _ hq)) hstep.1 hstep.2

theorem subIndexStep_bounded (acc : SubIdx) (p : Nat × ProcItem) (N : Nat)
    (h : postingsBounded acc.subtitle_terms N) (hp : p.1 < N) :
    postingsBounded (subIndexStep acc p).subtitle_terms N := by
  unfold subIndexStep
  generalize p.2.subtitles = subs
  induction subs generalizing acc with
  | nil => exact h
  | cons sub rest ih =>
    rw [List.foldl_cons]
    apply ih
    by_cases hc : (pyLower sub.text_combined) != ""
    · simp only [hc, if_pos, if_true]
      exact addToSearchIndex_bounded _ _ _ _ h hp
    · simp only [hc, if_neg, if_false]
      exact h

theorem foldl_sub_bounded (ps : List (Nat × ProcItem)) :
    ∀ (acc : SubIdx) (N : Nat), (∀ p ∈ ps, p.1 < N) →
    postingsBounded acc.subtitle_terms N →
    postingsBounded (ps.foldl subIndexStep acc).subtitle_terms N := by
  induction ps with
  | nil => intro acc N _ h; exact h
  | cons p rest ih =>
    intro acc N hps h
    rw [List.foldl_cons]
    exact ih _ N (fun q hq => hps q (List.mem_cons_of_mem _ hq))
      (subIndexStep_bounded acc p N h (hps p (List.mem_cons_self _ _)))

theorem mem_enumFrom_fst_lt (l : List α) :
    ∀ (n : Nat) (p : Nat × α), p ∈ l.enumFrom n → p.1 < n + l.length := by
  induction l with
  | nil => intro n p hp; simp [List.enumFrom] at hp
  | cons a rest ih =>
    intro n p hp
    simp only [List.enumFrom] at hp
    rcases List.mem_cons.mp hp with rfl | hp'
    · simp only [List.length_cons]
      omega
    · have := ih (n + 1) p hp'
      simp only [List.length_cons]
      omega

theorem mem_enum_fst_lt (l : List α) (p : Nat × α) (h : p ∈ l.enum) : p.1 < l.length := by
  have := mem_enumFrom_fst_lt l 0 p (by simpa [List.enum] using h)
  omega

/-- The processed flat item list `build_index` derives and hands to both
index builders. -/
def processedItemsOf (o : Oracles) (fl : Flags) (fuel : Nat)
    (es : List FSEntry) (st : AssetsState) : List ProcItem :=
  (flattenItemsF fuel (collectMediaItems o fl fuel es st).1).map (processMediaItem es)

/-- A shared concrete processed item used by witnesses. -/
def hItem : ProcItem :=
  ⟨"Hello", none, 0, "video", none, ["h.mp4"], ["h.mp4"], [], none, none, none, []⟩

/-- C10: in the built indexes, `item_map` has one identifier per item, every
ordinal in any posting list of the light index's name or description terms
or of the subtitle index is a valid index into `item_map`, and `build_index`
derives both indexes from the same processed item list in the same order. -/
theorem c10_search_index_ordinals (items : List ProcItem) :
    ((buildBaseSearchIndex items).item_map.length = items.length) ∧
    (∀ tok l, (buildBaseSearchIndex items).name_terms.lookup tok = some l →
      ∀ i ∈ l, i < (buildBaseSearchIndex items).item_map.length) ∧
    (∀ tok l, (buildBaseSearchIndex items).description_terms.lookup tok = some l →
      ∀ i ∈ l, i < (buildBaseSearchIndex items).item_map.length) ∧
    (∀ tok l, (buildSubtitleIndex items).subtitle_terms.lookup tok = some l →
      ∀ i ∈ l, i < (buildBaseSearchIndex items).item_map.length) ∧
    (∀ (o : Oracles) (fl : Flags) (fuel : Nat) (es : List FSEntry) (st : AssetsState),
      (buildIndexFull o fl fuel es st).1.search_index =
        buildBaseSearchIndex (processedItemsOf o fl fuel es st) ∧
      (buildIndexFull o fl fuel es st).2.1 =
        buildSubtitleIndex (processedItemsOf o fl fuel es st)) := by
  have hlen : (buildBaseSearchIndex items).item_map.length = items.length := by
    unfold buildBaseSearchIndex
    rw [foldl_base_item_map_len]
    simp [List.enum_length]
  have hfst : ∀ p ∈ items.enum, p.1 < items.length := fun p hp => mem_enum_fst_lt items p hp
  have hbase := foldl_base_bounded items.enum ⟨[], [], []⟩ items.length hfst
    (postingsBounded_nil _) (postingsBounded_nil _)
  have hsub := foldl_sub_bounded items.enum ⟨[]⟩ items.length hfst (postingsBounded_nil _)
  refine ⟨hlen, ?_, ?_, ?_, ?_⟩
  · intro tok l h i hi
    rw [hlen]
    exact hbase.1 tok l h i hi
  · intro tok l h i hi
    rw [hlen]
    exact hbase.2 tok l h i hi
  · intro tok l h i hi
    rw [hlen]
    exact hsub tok l h i hi
  · intro o fl fuel es st
    exact ⟨rfl, rfl⟩

/-- Witness for C10: for a one-item list the ordinal stored for the token
`hello` is a valid index into the one-entry `item_map`. -/
theorem c10_search_index_ordinals_witness :
    (buildBaseSearchIndex [hItem]).item_map.length = 1 ∧
    0 < (buildBaseSearchIndex [hItem]).item_map.length :=
  ⟨(c10_search_index_ordinals [hItem]).1,
   (c10_search_index_ordinals [hItem]).2.1 "hello" [0] (by decide) 0 (by simp)⟩

/-- The C3 scenario: a root holding the single media file
`Trip_2023-05-10.mp4` with no sidecar document. -/
def c3fs : List FSEntry := [FSEntry.file "Trip_2023-05-10.mp4" ⟨100, 5, "", none, true⟩]

/-- C3 counterexample: on the claimed input the resolver does extract the
date into `created_time`, but the display name stays the full stem
`Trip_2023-05-10` rather than the claimed `Trip`. -/
theorem c3_trip_display_name_counterexample :
    (processedItemsOf allOk noGen 9 c3fs emptyAssets).map ProcItem.name =
      ["Trip_2023-05-10"] ∧
    (processedItemsOf allOk noGen 9 c3fs emptyAssets).map ProcItem.created_time =
      [some "2023-05-10T00:00:00"] ∧
    "Trip_2023-05-10" ≠ "Trip" :=
  ⟨rfl, rfl, by decide⟩

/-- C3 amended: the resolver yields `created_time` 2023-05-10T00:00:00 and
display name `Trip_2023-05-10` (the full stem); the filename-extraction
helper does compute the date-stripped, separator-trimmed name `Trip`, but
only its `created_time` is consumed by the resolver. -/
theorem c3_trip_metadata_amended :
    (processedItemsOf allOk noGen 9 c3fs emptyAssets).map ProcItem.created_time =
      [some "2023-05-10T00:00:00"] ∧
    (processedItemsOf allOk noGen 9 c3fs emptyAssets).map ProcItem.name =
      ["Trip_2023-05-10"] ∧
    (extractMetadataFromFilename "Trip_2023-05-10.mp4").name = "Trip" ∧
    (extractMetadataFromFilename "Trip_2023-05-10.mp4").created_time =
      some "2023-05-10T00:00:00" :=
  ⟨rfl, rfl, rfl, rfl⟩

/-- C4: when the input directory does not exist or is not a directory the
run fails before any write event; otherwise the trace is exactly the log
setup followed by the three index writes — each carrying the complete
in-memory document produced by `build_index` — and the final config save,
so no partial catalog can be observed and skippable per-entry errors
(modelled inside `build_index`) only affect the document's content. -/
theorem c4_fatal_abort_and_atomic_persist (o : Oracles) (fl : Flags) (fuel : Nat)
    (w : World) :
    (¬(w.rootExists = true ∧ w.rootIsDir = true) →
      cliRun o fl fuel w = Except.error "Input directory not found") ∧
    (w.rootExists = true → w.rootIsDir = true →
      cliRun o fl fuel w = Except.ok
        [WriteEvent.logSetup [".videxer"],
         WriteEvent.writeJson ["index.json"]
           (buildIndexFull o fl fuel w.rootEntries w.assets).1,
         WriteEvent.writeSubs ["index.subtitles.json"]
           (buildIndexFull o fl fuel w.rootEntries w.assets).2.1,
         WriteEvent.writeHtml ["index.html"],
         WriteEvent.writeConfig]) := by
  constructor
  · intro h
    unfold cliRun
    have hc : (!(w.rootExists && w.rootIsDir)) = true := by
      cases hx : w.rootExists <;> cases hy : w.rootIsDir <;> simp_all
    rw [if_pos hc]
  · intro h1 h2
    unfold cliRun
    have hc : ¬((!(w.rootExists && w.rootIsDir)) = true) := by
      simp [h1, h2]
    rw [if_neg hc]
    rfl

/-- Witness for C4: an absent root aborts with no events; a valid root
produces exactly the full-document write trace. -/
theorem c4_fatal_abort_and_atomic_persist_witness :
    cliRun allOk noGen 9 ⟨false, true, c3fs, emptyAssets⟩ =
      Except.error "Input directory not found" ∧
    cliRun allOk noGen 9 ⟨true, true, c3fs, emptyAssets⟩ =
      Except.ok
        [WriteEvent.logSetup [".videxer"],
         WriteEvent.writeJson ["index.json"] (buildIndexFull allOk noGen 9 c3fs emptyAssets).1,
         WriteEvent.writeSubs ["index.subtitles.json"]
           (buildIndexFull allOk noGen 9 c3fs emptyAssets).2.1,
         WriteEvent.writeHtml ["index.html"],
         WriteEvent.writeConfig] :=
  ⟨(c4_fatal_abort_and_atomic_persist allOk noGen 9 ⟨false, true, c3fs, emptyAssets⟩).1
      (by simp),
   (c4_fatal_abort_and_atomic_persist allOk noGen 9 ⟨true, true, c3fs, emptyAssets⟩).2 rfl rfl⟩

/-- C8: after a transcode-enabled run of `build_index`, the transcodes
directory holds exactly the files of the post-collection state whose
relative paths are among the `transcoded` paths of the current processed
items; in particular every surviving artifact is referenced by an item of
the current result set, so an artifact whose source disappeared from the
tree (and whose path no item references any more) is deleted. -/
theorem c8_transcode_garbage_collection (o : Oracles) (fl : Flags) (fuel : Nat)
    (es : List FSEntry) (st : AssetsState) :
    fl.transcodes = true →
    ((buildIndexFull o fl fuel es st).2.2.transcodeFiles =
      (collectMediaItems o fl fuel es st).2.transcodeFiles.filter
        (fun p => (currentTranscodesOf (processedItemsOf o fl fuel es st)).contains
          [".videxer", "transcodes", p.1])) ∧
    (∀ pr ∈ (buildIndexFull o fl fuel es st).2.2.transcodeFiles,
      [".videxer", "transcodes", pr.1] ∈
        currentTranscodesOf (processedItemsOf o fl fuel es st)) := by
  intro ht
  obtain ⟨a, b, c⟩ := fl
  simp only at ht
  subst ht
  refine ⟨rfl, ?_⟩
  intro pr hpr
  have h1 : pr ∈ (collectMediaItems o ⟨a, b, true⟩ fuel es st).2.transcodeFiles.filter
      (fun p => (currentTranscodesOf (processedItemsOf o ⟨a, b, true⟩ fuel es st)).contains
        [".videxer", "transcodes", p.1]) := hpr
  have h2 := (List.mem_filter.mp h1).2
  simpa using h2

/-- Witness for C8: with transcoding enabled, a stale artifact whose source
is absent from the tree is deleted while the referenced artifact of the
present source survives. -/
theorem c8_transcode_garbage_collection_witness :
    (buildIndexFull allOk ⟨false, false, true⟩ 9 c3fs
        ⟨[], [("old_web.mp4", true), ("Trip_2023-05-10_web.mp4", true)]⟩).2.2.transcodeFiles =
      [("Trip_2023-05-10_web.mp4", true)] := by
  rw [(c8_transcode_garbage_collection allOk ⟨false, false, true⟩ 9 c3fs
      ⟨[], [("old_web.mp4", true), ("Trip_2023-05-10_web.mp4", true)]⟩ rfl).1]
  decide

/-! ### Structural lemmas for the hierarchical collector (claim C1) -/

/-- Collector items are media leaves or directory nodes, so "exactly one
media item and no directory item" is the same as being that singleton. -/
theorem singleMedia_iff (l : List Item) :
    ((l.filter Item.isMedia).length = 1 ∧ (l.filter Item.isDir).length = 0) ↔
      ∃ m, l = [Item.media m] := by
  constructor
  · rintro ⟨h1, h2⟩
    have hall : ∀ it ∈ l, Item.isMedia it = true := by
      intro it hit
      cases it with
      | media m => rfl
      | dirNode nm p ct dsc ch =>
        exfalso
        have hmem : Item.dirNode nm p ct dsc ch ∈ l.filter Item.isDir :=
          List.mem_filter.mpr ⟨hit, rfl⟩
        rw [List.length_eq_zero] at h2
        rw [h2] at hmem
        simp at hmem
    rw [List.filter_eq_self.mpr hall] at h1
    rcases List.length_eq_one.mp h1 with ⟨x, rfl⟩
    cases x with
    | media m => exact ⟨m, rfl⟩
    | dirNode nm p ct dsc ch =>
      have := hall _ (List.mem_cons_self _ _)
      simp [Item.isMedia] at this
  · rintro ⟨m, rfl⟩
    simp [Item.isMedia, Item.isDir]

theorem flattenPromote_path (md : Option MetaDoc) (n : String) (m : MediaFields) :
    (flattenPromote md n m).path = m.path := by
  cases md with
  | none => rfl
  | some d =>
    by_cases hd : docTruthy d = true
    · by_cases hc : optTruthy d.created_time = true <;>
        by_cases hdc : optTruthy d.description = true <;>
          simp [flattenPromote, hd, hc, hdc]
    · simp [flattenPromote, hd]

/-- The flattening rename-and-override in one record expression. -/
theorem flattenPromote_eq (md : Option MetaDoc) (n : String) (m : MediaFields) :
    flattenPromote md n m =
      { m with
        name :=
          match md with
          | some d => if docTruthy d then d.name.getD n else n
          | none => n,
        created_time :=
          match md with
          | some d =>
            if docTruthy d && optTruthy d.created_time then d.created_time
            else m.created_time
          | none => m.created_time,
        description :=
          match md with
          | some d =>
            if docTruthy d && optTruthy d.description then d.description
            else m.description
          | none => m.description } := by
  cases md with
  | none => rfl
  | some d =>
    by_cases hd : docTruthy d = true
    · by_cases hc : optTruthy d.created_time = true <;>
        by_cases hdc : optTruthy d.description = true <;>
          simp [flattenPromote, hd, hc, hdc]
    · simp [flattenPromote, hd]

/-- A kept directory node carries the subdirectory's path and children. -/
theorem dirNodeOf_shape (md : Option MetaDoc) (n : String) (p : List String)
    (children : List Item) :
    ∃ nm ct dsc, dirNodeOf md n p children = Item.dirNode nm p ct dsc children := by
  cases md with
  | none => exact ⟨n, none, none, rfl⟩
  | some d =>
    by_cases hd : docTruthy d = true
    · refine ⟨if optTruthy d.name then d.name.getD "" else n,
        if optTruthy d.created_time then d.created_time else none,
        if optTruthy d.description then d.description else none, ?_⟩
      simp [dirNodeOf, hd]
    · refine ⟨n, none, none, ?_⟩
      simp [dirNodeOf, hd]

/-- The three cases of the per-subdirectory step, stated against the
recursive result `r`. -/
theorem subdirContribution_cases
    (child : List FSEntry → List String → AssetsState → List Item × AssetsState)
    (n : String) (es : List FSEntry) (rel : List String) (st : AssetsState) :
    ((∀ m, (child es (rel ++ [n]) st).1 = [Item.media m] →
      subdirContribution child n es rel st =
        ([Item.media (flattenPromote (readMetadataDoc es) n m)],
         (child es (rel ++ [n]) st).2)) ∧
     ((child es (rel ++ [n]) st).1 ≠ [] →
      (∀ m, (child es (rel ++ [n]) st).1 ≠ [Item.media m]) →
      subdirContribution child n es rel st =
        ([dirNodeOf (readMetadataDoc es) n (rel ++ [n]) (child es (rel ++ [n]) st).1],
         (child es (rel ++ [n]) st).2)) ∧
     ((child es (rel ++ [n]) st).1 = [] →
      subdirContribution child n es rel st = ([], (child es (rel ++ [n]) st).2))) := by
  refine ⟨?_, ?_, ?_⟩
  · intro m hm
    simp only [subdirContribution]
    rw [hm]
    simp [Item.isMedia, Item.isDir]
  · intro hne hnm
    simp only [subdirContribution]
    have hcond : ¬(((child es (rel ++ [n]) st).1.filter Item.isMedia).length = 1 ∧
        ((child es (rel ++ [n]) st).1.filter Item.isDir).length = 0) := by
      intro hc
      rcases (singleMedia_iff _).mp hc with ⟨m, hm⟩
      exact hnm m hm
    have hb : (((child es (rel ++ [n]) st).1.filter Item.isMedia).length == 1 &&
        ((child es (rel ++ [n]) st).1.filter Item.isDir).length == 0) = false := by
      apply Bool.eq_false_iff.mpr
      intro hc
      rw [Bool.and_eq_true] at hc
      exact hcond ⟨eq_of_beq hc.1, eq_of_beq hc.2⟩
    rw [hb]
    simp only [Bool.false_eq_true, if_false]
    rw [if_pos (by simpa using hne)]
  · intro hm
    simp only [subdirContribution]
    rw [hm]
    simp

theorem createMediaItem_path (o : Oracles) (fl : Flags) (rel : List String)
    (name : String) (fd : FileData) (subs : List (String × FileData))
    (thumbs : List String) (sib : List FSEntry) (st : AssetsState) (m : MediaFields) :
    (createMediaItem o fl rel name fd subs thumbs sib st).1 = some m →
    m.path = rel ++ [name] := by
  cases hs : fd.statOk with
  | false =>
    intro h
    simp [createMediaItem, hs] at h
  | true =>
    intro h
    simp only [createMediaItem, hs, Bool.not_true, Bool.false_eq_true, if_false] at h
    simp only [Option.some.injEq] at h
    subst h
    rfl

theorem applyCurrentMeta_path (md : Option MetaDoc) (k : Nat) (m : MediaFields) :
    (applyCurrentMeta md k m).path = m.path := by
  cases md with
  | none => rfl
  | some d =>
    by_cases hd : (docTruthy d && k == 1) = true
    · by_cases h1 : optTruthy d.name = true <;>
        by_cases h2 : optTruthy d.created_time = true <;>
          by_cases h3 : optTruthy d.description = true <;>
            simp [applyCurrentMeta, hd, h1, h2, h3]
    · simp [applyCurrentMeta, hd]

/-- The invariant of the grouping fold: a group's media file is an actual
file entry of the directory. -/
def GroupsInv (entries0 : List FSEntry) (gs : List (String × MediaGroup)) : Prop :=
  ∀ kv ∈ gs, ∀ nm fd, kv.2.media = some (nm, fd) → FSEntry.file nm fd ∈ entries0

theorem mem_updGroup (gs : List (String × MediaGroup)) (k : String)
    (f : MediaGroup → MediaGroup) (kv : String × MediaGroup) :
    kv ∈ updGroup gs k f → kv ∈ gs ∨ ∃ p ∈ gs, kv = (p.1, f p.2) := by
  intro h
  rcases List.mem_map.mp h with ⟨p, hp, hkv⟩
  by_cases hpk : (p.1 == k) = true
  · rw [if_pos hpk] at hkv
    exact Or.inr ⟨p, hp, hkv.symm⟩
  · rw [if_neg hpk] at hkv
    exact Or.inl (hkv ▸ hp)

theorem groupStep_inv (entries0 : List FSEntry) (gs : List (String × MediaGroup))
    (e : FSEntry) (hgs : GroupsInv entries0 gs) (he : e ∈ entries0) :
    GroupsInv entries0 (groupStep gs e) := by
  cases e with
  | dir n es => exact hgs
  | file name fd =>
    intro kv hkv nm fd' hm
    simp only [groupStep] at hkv
    by_cases hskip : (pyStartsWith name "." || isThumbnailFile name) = true
    · rw [if_pos hskip] at hkv
      exact hgs kv hkv nm fd' hm
    · rw [if_neg hskip] at hkv
      by_cases hmed : ALL_MEDIA_EXTS.contains (pyLower (pySuffix name)) = true
      · rw [if_pos hmed] at hkv
        by_cases hkey : ((gs.lookup (pyStem name)).isSome) = true
        · rw [if_pos hkey] at hkv
          rcases mem_updGroup _ _ _ _ hkv with hkv' | ⟨p, hp, rfl⟩
          · exact hgs kv hkv' nm fd' hm
          · by_cases hnone : p.2.media.isNone = true
            · have h0 : (if p.2.media.isNone = true then
                  ({ p.2 with media := some (name, fd) } : MediaGroup) else p.2).media =
                  some (nm, fd') := hm
              rw [if_pos hnone] at h0
              have h1 : some (name, fd) = some (nm, fd') := h0
              obtain ⟨rfl, rfl⟩ := Prod.mk.injEq .. ▸ Option.some.inj h1
              exact he
            · have h0 : (if p.2.media.isNone = true then
                  ({ p.2 with media := some (name, fd) } : MediaGroup) else p.2).media =
                  some (nm, fd') := hm
              rw [if_neg hnone] at h0
              exact hgs p hp nm fd' h0
        · rw [if_neg hkey] at hkv
          rcases List.mem_append.mp hkv with h | h
          · exact hgs kv h nm fd' hm
          · simp only [List.mem_singleton] at h
            subst h
            have h1 : some (name, fd) = some (nm, fd') := hm
            obtain ⟨rfl, rfl⟩ := Prod.mk.injEq .. ▸ Option.some.inj h1
            exact he
      · rw [if_neg hmed] at hkv
        by_cases hsub : SUBTITLE_EXTS.contains (pyLower (pySuffix name)) = true
        · rw [if_pos hsub] at hkv
          by_cases hkey : ((gs.lookup (stripLangSuffix (pyStem name))).isSome) = true
          · rw [if_pos hkey] at hkv
            rcases mem_updGroup _ _ _ _ hkv with hkv' | ⟨p, hp, rfl⟩
            · exact hgs kv hkv' nm fd' hm
            · exact hgs p hp nm fd' hm
          · rw [if_neg hkey] at hkv
            rcases List.mem_append.mp hkv with h | h
            · exact hgs kv h nm fd' hm
            · simp only [List.mem_singleton] at h
              subst h
              simp at hm
        · rw [if_neg hsub] at hkv
          by_cases himg : (IMAGE_EXTS.contains (pyLower (pySuffix name)) &&
              (strHasSub (pyLower name) "thumb" || pyStartsWith name "poster")) = true
          · rw [if_pos himg] at hkv
            cases hfind : gs.find? (fun p => strHasSub name p.1) with
            | none =>
              rw [hfind] at hkv
              exact hgs kv hkv nm fd' hm
            | some kv0 =>
              rw [hfind] at hkv
              rcases mem_updGroup _ _ _ _ hkv with hkv' | ⟨p, hp, rfl⟩
              · exact hgs kv hkv' nm fd' hm
              · exact hgs p hp nm fd' hm
          · rw [if_neg himg] at hkv
            exact hgs kv hkv nm fd' hm

theorem foldl_groupStep_inv (entries0 : List FSEntry) (es : List FSEntry) :
    ∀ gs : List (String × MediaGroup), GroupsInv entries0 gs → (∀ e ∈ es, e ∈ entries0) →
    GroupsInv entries0 (es.foldl groupStep gs) := by
  induction es with
  | nil => intro gs hgs _; exact hgs
  | cons e rest ih =>
    intro gs hgs hsub
    rw [List.foldl_cons]
    exact ih _ (groupStep_inv entries0 gs e hgs (hsub e (List.mem_cons_self _ _)))
      (fun x hx => hsub x (List.mem_cons_of_mem _ hx))

theorem groupRelatedFiles_inv (entries : List FSEntry) :
    GroupsInv entries (groupRelatedFiles entries) := by
  unfold groupRelatedFiles
  exact foldl_groupStep_inv entries entries [] (by intro kv h; simp at h) (fun e he => he)

/-- Every item produced by the media-group loop is a media item whose path
is the current directory extended by the name of one of its file entries. -/
theorem processGroups_media (o : Oracles) (fl : Flags) (rel : List String)
    (entries : List FSEntry) (st : AssetsState) :
    ∀ it ∈ (processGroups o fl rel entries st).1,
      ∃ m fname fd, it = Item.media m ∧ m.path = rel ++ [fname] ∧
        FSEntry.file fname fd ∈ entries := by
  have hinv : GroupsInv entries (groupRelatedFiles entries) := groupRelatedFiles_inv entries
  have hinv' : ∀ kv ∈ insertionSortB (fun a b => strLeB a.1 b.1) (groupRelatedFiles entries),
      ∀ nm fd, kv.2.media = some (nm, fd) → FSEntry.file nm fd ∈ entries := by
    intro kv hkv
    exact hinv kv ((mem_insertionSortB _ _ _).mp hkv)
  simp only [processGroups]
  generalize hgs : insertionSortB (fun a b => strLeB a.1 b.1) (groupRelatedFiles entries) = gs
    at hinv' ⊢
  generalize (groupRelatedFiles entries).length = k
  suffices h : ∀ (gs : List (String × MediaGroup)) (acc : List Item × AssetsState),
      (∀ kv ∈ gs, ∀ nm fd, kv.2.media = some (nm, fd) → FSEntry.file nm fd ∈ entries) →
      (∀ it ∈ acc.1, ∃ m fname fd, it = Item.media m ∧ m.path = rel ++ [fname] ∧
        FSEntry.file fname fd ∈ entries) →
      ∀ it ∈ (gs.foldl (processGroupsStep o fl rel entries (readMetadataDoc entries) k) acc).1,
        ∃ m fname fd, it = Item.media m ∧ m.path = rel ++ [fname] ∧
          FSEntry.file fname fd ∈ entries by
    exact h gs ([], st) hinv' (by intro it h'; simp at h')
  intro gs
  induction gs with
  | nil => intro acc _ hacc it hit; exact hacc it hit
  | cons g rest ih =>
    intro acc hgs0 hacc it hit
    rw [List.foldl_cons] at hit
    refine ih _ (fun kv hkv => hgs0 kv (List.mem_cons_of_mem _ hkv)) ?_ it hit
    intro it' hit'
    cases hgm : g.2.media with
    | none =>
      simp only [processGroupsStep, hgm] at hit'
      exact hacc it' hit'
    | some mf =>
      cases hcr : (createMediaItem o fl rel mf.1 mf.2 g.2.subtitles g.2.thumbnails entries
          acc.2).1 with
      | none =>
        simp only [processGroupsStep, hgm, hcr] at hit'
        exact hacc it' hit'
      | some m =>
        simp only [processGroupsStep, hgm, hcr] at hit'
        rcases List.mem_append.mp hit' with h' | h'
        · exact hacc it' h'
        · simp only [List.mem_singleton] at h'
          subst h'
          refine ⟨applyCurrentMeta (readMetadataDoc entries) k m, mf.1, mf.2, rfl, ?_, ?_⟩
          · rw [applyCurrentMeta_path]
            exact createMediaItem_path o fl rel mf.1 mf.2 _ _ _ _ m hcr
          · exact hgs0 g (List.mem_cons_self _ _) mf.1 mf.2 (by rw [hgm])

theorem perm_orderedInsertB (le : α → α → Bool) (a : α) (l : List α) :
    (orderedInsertB le a l).Perm (a :: l) := by
  induction l with
  | nil => exact List.Perm.refl _
  | cons b t ih =>
    by_cases h : le a b = true
    · simp only [orderedInsertB, h, if_true]
      exact List.Perm.refl _
    · simp only [orderedInsertB, h, if_false]
      exact (ih.cons b).trans (List.Perm.swap a b t)

theorem perm_insertionSortB (le : α → α → Bool) (l : List α) :
    (insertionSortB le l).Perm l := by
  induction l with
  | nil => exact List.Perm.refl _
  | cons a t ih =>
    simp only [insertionSortB]
    exact (perm_orderedInsertB le a _).trans (ih.cons a)

theorem mem_sortedSubdirs (entries : List FSEntry) (e : FSEntry) :
    e ∈ sortedSubdirs entries → e ∈ entries := by
  intro h
  have h2 := List.mem_filter.mp h
  exact (mem_insertionSortB _ _ _).mp h2.1

/-- Distinct entry names survive the sort-and-filter of the subdirectory
listing. -/
theorem sortedSubdirs_names_nodup (entries : List FSEntry)
    (h : (entries.map entryName).Nodup) :
    ((sortedSubdirs entries).map entryName).Nodup := by
  have hp : (insertionSortB (fun a b => strLeB (entryName a) (entryName b)) entries).Perm
      entries := perm_insertionSortB _ _
  have h2 : ((insertionSortB (fun a b => strLeB (entryName a) (entryName b)) entries).map
      entryName).Nodup := ((hp.map entryName).nodup_iff).mpr h
  have hs : (sortedSubdirs entries).Sublist
      (insertionSortB (fun a b => strLeB (entryName a) (entryName b)) entries) :=
    List.filter_sublist _
  exact (hs.map entryName).nodup h2

/-- Two prefixes of one list with the same length coincide. -/
theorem prefix_same_length_eq {l1 l2 l : List α} (h1 : l1 <+: l) (h2 : l2 <+: l)
    (h : l1.length = l2.length) : l1 = l2 :=
  (List.prefix_of_prefix_length_le h1 h2 (le_of_eq h)).eq_of_length h

/-- The per-subdirectory contribution is a single item: the flattened single
media item of the recursive contents, or a directory node at the
subdirectory's path holding those contents. -/
theorem subdirContribution_mem
    (child : List FSEntry → List String → AssetsState → List Item × AssetsState)
    (n : String) (es : List FSEntry) (rel : List String) (st : AssetsState) :
    ∀ it ∈ (subdirContribution child n es rel st).1,
      (subdirContribution child n es rel st).1 = [it] ∧
      ((∃ m0, Item.media m0 ∈ (child es (rel ++ [n]) st).1 ∧
          it = Item.media (flattenPromote (readMetadataDoc es) n m0)) ∨
       (∃ nm ct dsc,
          it = Item.dirNode nm (rel ++ [n]) ct dsc (child es (rel ++ [n]) st).1)) := by
  intro it hit
  by_cases hm : ∃ m, (child es (rel ++ [n]) st).1 = [Item.media m]
  · rcases hm with ⟨m, hm⟩
    have hc := (subdirContribution_cases child n es rel st).1 m hm
    rw [hc] at hit ⊢
    simp only [List.mem_singleton] at hit
    subst hit
    exact ⟨rfl, Or.inl ⟨m, by rw [hm]; exact List.mem_cons_self _ _, rfl⟩⟩
  · by_cases hne : (child es (rel ++ [n]) st).1 = []
    · have hc := (subdirContribution_cases child n es rel st).2.2 hne
      rw [hc] at hit
      simp at hit
    · have hc := (subdirContribution_cases child n es rel st).2.1 hne
        (fun m hmeq => hm ⟨m, hmeq⟩)
      rw [hc] at hit ⊢
      simp only [List.mem_singleton] at hit
      subst hit
      rcases dirNodeOf_shape (readMetadataDoc es) n (rel ++ [n])
        (child es (rel ++ [n]) st).1 with ⟨nm, ct, dsc, hshape⟩
      exact ⟨rfl, Or.inr ⟨nm, ct, dsc, hshape⟩⟩

/-- Origins and disjointness in the subdirectory loop: every media item in
its output lies under some subdirectory of the listing, every directory node
is at the path of some subdirectory, and — when the subdirectory names are
distinct — no directory node's path is a prefix of a media item's path. -/
theorem buildSubdirs_props
    (child : List FSEntry → List String → AssetsState → List Item × AssetsState)
    (rel : List String)
    (Hchild : ∀ es rel2 st m, Item.media m ∈ (child es rel2 st).1 → rel2 <+: m.path) :
    ∀ (ds : List FSEntry) (st : AssetsState),
      (∀ m, Item.media m ∈ (buildSubdirsWith child ds rel st).1 →
        ∃ n es, FSEntry.dir n es ∈ ds ∧ rel ++ [n] <+: m.path) ∧
      (∀ nm p ct dsc ch,
        Item.dirNode nm p ct dsc ch ∈ (buildSubdirsWith child ds rel st).1 →
        ∃ n es, FSEntry.dir n es ∈ ds ∧ p = rel ++ [n]) ∧
      ((ds.map entryName).Nodup →
        ∀ m nm p ct dsc ch,
          Item.media m ∈ (buildSubdirsWith child ds rel st).1 →
          Item.dirNode nm p ct dsc ch ∈ (buildSubdirsWith child ds rel st).1 →
          ¬ p <+: m.path) := by
  intro ds
  induction ds with
  | nil =>
    intro st
    refine ⟨?_, ?_, ?_⟩ <;> intros <;> simp [buildSubdirsWith] at *
  | cons e rest ih =>
    intro st
    cases e with
    | file fn fd =>
      have heq : buildSubdirsWith child (FSEntry.file fn fd :: rest) rel st =
          buildSubdirsWith child rest rel st := rfl
      rw [heq]
      refine ⟨?_, ?_, ?_⟩
      · intro m hm
        rcases (ih st).1 m hm with ⟨n2, es2, hmem, hp⟩
        exact ⟨n2, es2, List.mem_cons_of_mem _ hmem, hp⟩
      · intro nm p ct dsc ch hd
        rcases (ih st).2.1 nm p ct dsc ch hd with ⟨n2, es2, hmem, hp⟩
        exact ⟨n2, es2, List.mem_cons_of_mem _ hmem, hp⟩
      · intro hnd
        rw [List.map_cons] at hnd
        exact (ih st).2.2 hnd.of_cons
    | dir n es =>
      have heq : buildSubdirsWith child (FSEntry.dir n es :: rest) rel st =
          ((subdirContribution child n es rel st).1 ++
            (buildSubdirsWith child rest rel (subdirContribution child n es rel st).2).1,
           (buildSubdirsWith child rest rel (subdirContribution child n es rel st).2).2) :=
        rfl
      refine ⟨?_, ?_, ?_⟩
      · intro m hm
        rw [heq] at hm
        rcases List.mem_append.mp hm with h | h
        · rcases (subdirContribution_mem child n es rel st _ h).2 with
            ⟨m0, hm0, hme⟩ | ⟨nm0, ct0, dsc0, habs⟩
          · have hmm : m = flattenPromote (readMetadataDoc es) n m0 := by
              injection hme
            refine ⟨n, es, List.mem_cons_self _ _, ?_⟩
            rw [hmm, flattenPromote_path]
            exact Hchild es (rel ++ [n]) st m0 hm0
          · simp at habs
        · rcases (ih _).1 m h with ⟨n2, es2, hmem, hp⟩
          exact ⟨n2, es2, List.mem_cons_of_mem _ hmem, hp⟩
      · intro nm p ct dsc ch hd
        rw [heq] at hd
        rcases List.mem_append.mp hd with h | h
        · rcases (subdirContribution_mem child n es rel st _ h).2 with
            ⟨m0, hm0, habs⟩ | ⟨nm0, ct0, dsc0, hde⟩
          · simp at habs
          · refine ⟨n, es, List.mem_cons_self _ _, ?_⟩
            injection hde
        · rcases (ih _).2.1 nm p ct dsc ch h with ⟨n2, es2, hmem, hp⟩
          exact ⟨n2, es2, List.mem_cons_of_mem _ hmem, hp⟩
      · intro hnd m nm p ct dsc ch hm hd hcon
        rw [List.map_cons] at hnd
        rw [show entryName (FSEntry.dir n es) = n from rfl] at hnd
        have hnmem : n ∉ rest.map entryName := (List.nodup_cons.mp hnd).1
        have hndr : (rest.map entryName).Nodup := (List.nodup_cons.mp hnd).2
        rw [heq] at hm hd
        rcases List.mem_append.mp hm with hm1 | hm2 <;>
          rcases List.mem_append.mp hd with hd1 | hd2
        · have h1 := (subdirContribution_mem child n es rel st _ hm1).1
          rw [h1] at hd1
          simp at hd1
        · rcases (subdirContribution_mem child n es rel st _ hm1).2 with
            ⟨m0, hm0, hme⟩ | ⟨nm0, ct0, dsc0, habs⟩
          · have hmm : m = flattenPromote (readMetadataDoc es) n m0 := by
              injection hme
            have hpref : rel ++ [n] <+: m.path := by
              rw [hmm, flattenPromote_path]
              exact Hchild es (rel ++ [n]) st m0 hm0
            rcases (ih _).2.1 nm p ct dsc ch hd2 with ⟨n2, es2, hmem2, hp2⟩
            rw [hp2] at hcon
            have heq2 : rel ++ [n2] = rel ++ [n] :=
              prefix_same_length_eq hcon hpref (by simp)
            have hnn : n2 = n := by
              have h3 := List.append_cancel_left heq2
              simpa using h3
            apply hnmem
            rw [← hnn]
            exact List.mem_map.mpr ⟨FSEntry.dir n2 es2, hmem2, rfl⟩
          · simp at habs
        · rcases (subdirContribution_mem child n es rel st _ hd1).2 with
            ⟨m0, hm0, habs⟩ | ⟨nm0, ct0, dsc0, hde⟩
          · simp at habs
          · have hp1 : p = rel ++ [n] := by
              injection hde
            rcases (ih _).1 m hm2 with ⟨n2, es2, hmem2, hpref2⟩
            rw [hp1] at hcon
            have heq2 : rel ++ [n] = rel ++ [n2] :=
              prefix_same_length_eq hcon hpref2 (by simp)
            have hnn : n = n2 := by
              have h3 := List.append_cancel_left heq2
              simpa using h3
            apply hnmem
            rw [hnn]
            exact List.mem_map.mpr ⟨FSEntry.dir n2 es2, hmem2, rfl⟩
        · exact (ih _).2.2 hndr m nm p ct dsc ch hm2 hd2 hcon

/-- Every media item collected at `rel` has `rel` as a proper prefix of its
path. -/
theorem buildDirF_media_prefix (o : Oracles) (fl : Flags) :
    ∀ (fuel : Nat) (es : List FSEntry) (rel : List String) (st : AssetsState)
      (m : MediaFields),
      Item.media m ∈ (buildDirF o fl fuel es rel st).1 → rel <+: m.path := by
  intro fuel
  induction fuel with
  | zero =>
    intro es rel st m hm
    simp [buildDirF] at hm
  | succ f ih =>
    intro es rel st m hm
    simp only [buildDirF] at hm
    rcases List.mem_append.mp hm with h | h
    · rcases processGroups_media o fl rel es st _ h with ⟨m2, fname, fd, hme, hpath, _⟩
      have hmm : m = m2 := by injection hme
      rw [hmm, hpath]
      exact List.prefix_append _ _
    · rcases (buildSubdirs_props (buildDirF o fl f) rel
          (fun es2 rel2 st2 m2 hm2 => ih es2 rel2 st2 m2 hm2) (sortedSubdirs es) _).1
          m h with ⟨n, es2, _, hpref⟩
      exact (List.prefix_append rel [n]).trans hpref

/-- In a directory whose entry names are distinct, no directory node the
collector reports has a path that prefixes a collected media item's path:
flattened subdirectories leave no directory node behind. -/
theorem buildDirF_no_dir_prefix (o : Oracles) (fl : Flags) (fuel : Nat)
    (entries : List FSEntry) (rel : List String) (st : AssetsState)
    (hnd : (entries.map entryName).Nodup) :
    ∀ m nm p ct dsc ch,
      Item.media m ∈ (buildDirF o fl fuel entries rel st).1 →
      Item.dirNode nm p ct dsc ch ∈ (buildDirF o fl fuel entries rel st).1 →
      ¬ p <+: m.path := by
  cases fuel with
  | zero =>
    intro m nm p ct dsc ch hm hd
    simp [buildDirF] at hm
  | succ f =>
    intro m nm p ct dsc ch hm hd hcon
    simp only [buildDirF] at hm hd
    have hprops := buildSubdirs_props (buildDirF o fl f) rel
      (fun es2 rel2 st2 m2 hm2 => buildDirF_media_prefix o fl f es2 rel2 st2 m2 hm2)
      (sortedSubdirs entries) (processGroups o fl rel entries st).2
    rcases List.mem_append.mp hd with hd1 | hd2
    · rcases processGroups_media o fl rel entries st _ hd1 with ⟨m2, fname, fd, habs, _, _⟩
      simp at habs
    · rcases hprops.2.1 nm p ct dsc ch hd2 with ⟨n, es, hmemd, hp⟩
      rcases List.mem_append.mp hm with hm1 | hm2
      · rcases processGroups_media o fl rel entries st _ hm1 with
          ⟨m2, fname, fd, hme, hpath, hfile⟩
        have hmm : m = m2 := by injection hme
        rw [hp] at hcon
        rw [hmm, hpath] at hcon
        have heq2 : rel ++ [n] = rel ++ [fname] :=
          hcon.eq_of_length (by simp)
        have hnf : n = fname := by
          have h3 := List.append_cancel_left heq2
          simpa using h3
        have hdirent : FSEntry.dir n es ∈ entries := mem_sortedSubdirs entries _ hmemd
        have hsame : FSEntry.dir n es = FSEntry.file fname fd :=
          List.inj_on_of_nodup_map hnd hdirent hfile
            (show entryName (FSEntry.dir n es) = entryName (FSEntry.file fname fd) by
              simpa [entryName] using hnf)
        exact FSEntry.noConfusion hsame
      · exact hprops.2.2 (sortedSubdirs_names_nodup entries hnd)
          m nm p ct dsc ch hm2 hd2 hcon

/-- A subdirectory's entries weigh strictly less than the directory's. -/
theorem weight_lt_of_dir_mem :
    ∀ (entries : List FSEntry) (n : String) (es : List FSEntry),
      FSEntry.dir n es ∈ entries → weightEntries es < weightEntries entries := by
  intro entries
  induction entries with
  | nil => intro n es h; simp at h
  | cons e rest ih =>
    intro n es h
    rcases List.mem_cons.mp h with he | hmem
    · subst he
      simp only [weightEntries]
      omega
    · have h2 := ih n es hmem
      cases e with
      | file _ _ => simp only [weightEntries]; omega
      | dir _ _ => simp only [weightEntries]; omega

theorem subdirContribution_congr
    (child1 child2 : List FSEntry → List String → AssetsState → List Item × AssetsState)
    (n : String) (es : List FSEntry) (rel : List String) (st : AssetsState)
    (h : child1 es (rel ++ [n]) st = child2 es (rel ++ [n]) st) :
    subdirContribution child1 n es rel st = subdirContribution child2 n es rel st := by
  simp only [subdirContribution, h]

theorem buildSubdirsWith_congr
    (child1 child2 : List FSEntry → List String → AssetsState → List Item × AssetsState)
    (rel : List String) :
    ∀ (ds : List FSEntry) (st : AssetsState),
      (∀ n es2, FSEntry.dir n es2 ∈ ds → ∀ rel2 st2,
        child1 es2 rel2 st2 = child2 es2 rel2 st2) →
      buildSubdirsWith child1 ds rel st = buildSubdirsWith child2 ds rel st := by
  intro ds
  induction ds with
  | nil => intro st _; rfl
  | cons e rest ih =>
    intro st h
    cases e with
    | file fn fd =>
      exact ih st (fun n es2 hm => h n es2 (List.mem_cons_of_mem _ hm))
    | dir dn des =>
      have hc : subdirContribution child1 dn des rel st =
          subdirContribution child2 dn des rel st :=
        subdirContribution_congr child1 child2 dn des rel st
          (h dn des (List.mem_cons_self _ _) _ _)
      simp only [buildSubdirsWith]
      rw [hc, ih _ (fun n es2 hm rel2 st2 => h n es2 (List.mem_cons_of_mem _ hm) rel2 st2)]

/-- Fuel irrelevance: any two bounds above the structural weight of the
tree give the same collection, so the fueled embedding computes the Python
recursion. -/
theorem buildDirF_irrel (o : Oracles) (fl : Flags) :
    ∀ (f g : Nat) (es : List FSEntry) (rel : List String) (st : AssetsState),
      weightEntries es < f → weightEntries es < g →
      buildDirF o fl f es rel st = buildDirF o fl g es rel st := by
  intro f
  induction f with
  | zero => intro g es rel st hf; exact absurd hf (Nat.not_lt_zero _)
  | succ f ih =>
    intro g es rel st hf hg
    cases g with
    | zero => exact absurd hg (Nat.not_lt_zero _)
    | succ g2 =>
      simp only [buildDirF]
      have hsub : buildSubdirsWith (buildDirF o fl f) (sortedSubdirs es) rel
          (processGroups o fl rel es st).2 =
          buildSubdirsWith (buildDirF o fl g2) (sortedSubdirs es) rel
          (processGroups o fl rel es st).2 := by
        apply buildSubdirsWith_congr
        intro n es2 hm rel2 st2
        have hw : weightEntries es2 < weightEntries es :=
          weight_lt_of_dir_mem es n es2 (mem_sortedSubdirs es _ hm)
        exact ih g2 es2 rel2 st2 (by omega) (by omega)
      rw [hsub]

/-- Witness for C7: from empty assets with successful generation, the first
call produces a valid artifact and the second call is the stated no-op. -/
theorem c7_ensure_transcode_idempotent_witness :
    transcodeLookup (ensureTranscode allOk "v" ["v.mp4"] emptyAssets).2.1 "v_web.mp4" =
        some true ∧
    ensureTranscode allOk "v" ["v.mp4"] (ensureTranscode allOk "v" ["v.mp4"] emptyAssets).2.1 =
      (some [".videxer", "transcodes", "v_web.mp4"],
       (ensureTranscode allOk "v" ["v.mp4"] emptyAssets).2.1, false) :=
  ⟨by decide, c7_ensure_transcode_idempotent allOk "v" ["v.mp4"] emptyAssets (by decide)⟩

/-- The single media item collected from `c1sub`, before promotion. -/
def c1mv : MediaFields :=
  ⟨"v", ["Holiday", "v.mp4"], ["Holiday", "v.mp4"], 100, 5, "video", none, none, [],
   none, none, []⟩

def c1ma : MediaFields :=
  ⟨"a", ["Stuff", "a.mp4"], ["Stuff", "a.mp4"], 100, 5, "video", none, none, [],
   none, none, []⟩

def c1mb : MediaFields :=
  ⟨"b", ["Stuff", "b.mp4"], ["Stuff", "b.mp4"], 100, 5, "video", none, none, [],
   none, none, []⟩

/-- C1: (i) "exactly one MediaItem and zero DirectoryNodes" among a
subdirectory's collected contents is equivalent to those contents being a
one-media-item list; (ii) in that case the collector promotes the media item
to the current level, renamed to the subdirectory's name — or the sidecar's
`name` when a truthy sidecar declares one — with the sidecar's
`created_time`/`description` applied as overrides; (iii) a subdirectory with
other non-empty contents is kept as a DirectoryNode at the subdirectory's
path holding those contents; (iv) a subdirectory producing no items
contributes nothing; and (v) in a directory whose entry names are distinct,
the collected output never pairs a DirectoryNode whose path is a prefix of a
collected MediaItem's path, so the parent never reports a DirectoryNode for
a flattened path. -/
theorem c1_flatten_promote
    (child : List FSEntry → List String → AssetsState → List Item × AssetsState)
    (n : String) (es : List FSEntry) (rel : List String) (st : AssetsState)
    (o : Oracles) (fl : Flags) (fuel : Nat) (entries : List FSEntry)
    (st0 : AssetsState) :
    ((((child es (rel ++ [n]) st).1.filter Item.isMedia).length = 1 ∧
        ((child es (rel ++ [n]) st).1.filter Item.isDir).length = 0) ↔
      ∃ m, (child es (rel ++ [n]) st).1 = [Item.media m]) ∧
    (∀ m, (child es (rel ++ [n]) st).1 = [Item.media m] →
      subdirContribution child n es rel st =
        ([Item.media { m with
            name :=
              match readMetadataDoc es with
              | some d => if docTruthy d then d.name.getD n else n
              | none => n,
            created_time :=
              match readMetadataDoc es with
              | some d =>
                if docTruthy d && optTruthy d.created_time then d.created_time
                else m.created_time
              | none => m.created_time,
            description :=
              match readMetadataDoc es with
              | some d =>
                if docTruthy d && optTruthy d.description then d.description
                else m.description
              | none => m.description }],
         (child es (rel ++ [n]) st).2)) ∧
    ((child es (rel ++ [n]) st).1 ≠ [] →
      (∀ m, (child es (rel ++ [n]) st).1 ≠ [Item.media m]) →
      ∃ nm ct dsc, subdirContribution child n es rel st =
        ([Item.dirNode nm (rel ++ [n]) ct dsc (child es (rel ++ [n]) st).1],
         (child es (rel ++ [n]) st).2)) ∧
    ((child es (rel ++ [n]) st).1 = [] →
      subdirContribution child n es rel st = ([], (child es (rel ++ [n]) st).2)) ∧
    ((entries.map entryName).Nodup →
      ∀ m nm p ct dsc ch,
        Item.media m ∈ (buildDirF o fl fuel entries rel st0).1 →
        Item.dirNode nm p ct dsc ch ∈ (buildDirF o fl fuel entries rel st0).1 →
        ¬ p <+: m.path) := by
  refine ⟨singleMedia_iff _, ?_, ?_, (subdirContribution_cases child n es rel st).2.2,
    buildDirF_no_dir_prefix o fl fuel entries rel st0⟩
  · intro m hm
    rw [(subdirContribution_cases child n es rel st).1 m hm, flattenPromote_eq]
  · intro hne hnm
    rcases dirNodeOf_shape (readMetadataDoc es) n (rel ++ [n]) (child es (rel ++ [n]) st).1
      with ⟨nm, ct, dsc, hshape⟩
    exact ⟨nm, ct, dsc, by
      rw [(subdirContribution_cases child n es rel st).2.1 hne hnm, hshape]⟩

/-- Witness for C1 on a concrete tree: `Holiday` (one media file) flattens
to a renamed media item, `Stuff` (two media files) stays a directory node,
an empty subdirectory is dropped, and the kept node's path `Stuff` is not a
prefix of the flattened item's path `Holiday/v.mp4`. -/
theorem c1_flatten_promote_witness :
    ((((buildDirF allOk noGen 4 c1sub ["Holiday"] emptyAssets).1.filter
            Item.isMedia).length = 1 ∧
        ((buildDirF allOk noGen 4 c1sub ["Holiday"] emptyAssets).1.filter
            Item.isDir).length = 0) ↔
      ∃ m, (buildDirF allOk noGen 4 c1sub ["Holiday"] emptyAssets).1 = [Item.media m]) ∧
    subdirContribution (buildDirF allOk noGen 4) "Holiday" c1sub [] emptyAssets =
      ([Item.media { c1mv with name := "Holiday" }], emptyAssets) ∧
    (∃ nm ct dsc,
      subdirContribution (buildDirF allOk noGen 4) "Stuff" c1two [] emptyAssets =
        ([Item.dirNode nm ["Stuff"] ct dsc [Item.media c1ma, Item.media c1mb]],
         emptyAssets)) ∧
    subdirContribution (buildDirF allOk noGen 4) "Empty" [] [] emptyAssets =
      ([], emptyAssets) ∧
    ¬ ["Stuff"] <+: ["Holiday", "v.mp4"] := by
  have h1 := c1_flatten_promote (buildDirF allOk noGen 4) "Holiday" c1sub [] emptyAssets
    allOk noGen 4 c1entries emptyAssets
  have h2 := c1_flatten_promote (buildDirF allOk noGen 4) "Stuff" c1two [] emptyAssets
    allOk noGen 4 c1entries emptyAssets
  have h3 := c1_flatten_promote (buildDirF allOk noGen 4) "Empty" [] [] emptyAssets
    allOk noGen 4 c1entries emptyAssets
  have hB : (buildDirF allOk noGen 4 c1two ([] ++ ["Stuff"]) emptyAssets).1 =
      [Item.media c1ma, Item.media c1mb] := rfl
  have hOut : (buildDirF allOk noGen 4 c1entries [] emptyAssets).1 =
      [Item.media ⟨"clip", ["clip.mp4"], ["clip.mp4"], 100, 5, "video", none, none, [],
         none, none, []⟩,
       Item.media { c1mv with name := "Holiday" },
       Item.dirNode "Stuff" ["Stuff"] none none
         [Item.media c1ma, Item.media c1mb]] := rfl
  refine ⟨h1.1, h1.2.1 c1mv rfl, ?_, h3.2.2.2.1 rfl, ?_⟩
  · exact h2.2.2.1 (by rw [hB]; simp)
      (by intro m hm; rw [hB] at hm; simp at hm)
  · exact h1.2.2.2.2 (by decide) { c1mv with name := "Holiday" } "Stuff" ["Stuff"]
      none none [Item.media c1ma, Item.media c1mb]
      (by rw [hOut]; exact List.mem_cons_of_mem _ (List.mem_cons_self _ _))
      (by rw [hOut]
          exact List.mem_cons_of_mem _ (List.mem_cons_of_mem _ (List.mem_cons_self _ _)))

end Videxer
